import Mathlib

/-!
# TraceWrapper: a shallow embedding of `src/TraceWrapper.cpp`

The source turns a task graph into a stream of memory requests.  The three
member functions of `TraceWrapper` are embedded here:

* `getSequenceTask`       (lines 53-70)
* `populateQueue`         (lines 74-234)
* `getNextMemoryRequest`  (lines 29-48)

The types used by these functions are declared in `TraceWrapper.hpp` and in
the task library, neither of which is part of `src/`; they are modelled from
the data model of the specification and from the way the source uses them.
Machine arithmetic on time stamps wraps at `2 ^ 64`, the byte count of a
request is a shift of a 32 bit `int`; identifiers and counters are natural
numbers.  A call that would divide by zero, fail an assertion or read the top
of an empty queue yields `Except.error`.
-/

namespace TraceWrapper

/-! ## Data model -/

/-- Modelled from the spec: the identifier of one execution context (the
declaration of the type is not in the source file). -/
abbrev ContextId := Nat

/-- Modelled from the spec: a time stamp (type `ct_timestamp`, declared
outside the source file); an unsigned 64 bit counter. -/
abbrev ct_timestamp := Nat

/-- Number of values of a time stamp; arithmetic on time stamps is taken
modulo this number. -/
def tsMod : Nat := 2 ^ 64

/-- Wrapping addition of time stamps, the `+=` of line 127. -/
def tsAdd (a b : ct_timestamp) : ct_timestamp := (a + b) % tsMod

/-- Wrapping subtraction of time stamps, the `-` of lines 185 and 220. -/
def tsSub (a b : ct_timestamp) : ct_timestamp := (a % tsMod + tsMod - b % tsMod) % tsMod

/-- Modelled from the spec: a task identifier is composed of a context id
and a sequence number and is totally ordered; the value `0` stands for
"no task". -/
structure TaskId where
  contextId : ContextId
  seqId : Nat
deriving DecidableEq

namespace TaskId

/-- The identifier `0`, the terminal sentinel. -/
def zero : TaskId := ⟨0, 0⟩

/-- The accessor `getContextId` of a task identifier. -/
def getContextId (i : TaskId) : ContextId := i.contextId

/-- The order `<` of task identifiers: by context id, then by sequence
number. -/
def lt (a b : TaskId) : Bool :=
  decide (a.contextId < b.contextId) ||
    (decide (a.contextId = b.contextId) && decide (a.seqId < b.seqId))

/-- The order `≤` of task identifiers derived from `lt`. -/
def le (a b : TaskId) : Bool := !(lt b a)

end TaskId

/-- Modelled from the spec: the access kind of a memory action. -/
inductive action_type where
  | action_type_mem_read
  | action_type_mem_write
deriving DecidableEq

/-- Modelled from the spec: a memory action has an access kind, a size class
`pow_size` (the exponent of a power-of-two byte count) and an address. -/
structure MemoryAction where
  type : action_type
  pow_size : Nat
  addr : Nat
deriving DecidableEq

/-- Modelled from the spec: a basic-block action has an identifier and an
ordered sequence of memory actions (`getMemOps`). -/
structure BasicBlockAction where
  basic_block_id : Nat
  memOps : List MemoryAction
deriving DecidableEq

/-- Modelled from the spec: the type of a task, either executing basic blocks
or one of the non-executing (synchronizing) kinds. -/
inductive task_type where
  | task_type_basic_blocks
  | task_type_sync
  | task_type_barrier
  | task_type_create
  | task_type_join
deriving DecidableEq

/-- Modelled from the spec: a task of the graph with the attributes the
source reads through its accessors. -/
structure Task where
  taskId : TaskId
  contextId : ContextId
  startTime : ct_timestamp
  endTime : ct_timestamp
  type : task_type
  successorTasks : List TaskId
  basicBlockActions : List BasicBlockAction
  bbCount : Nat
deriving DecidableEq

/-- Modelled from the spec: the task graph source; `remaining` are the tasks
that `getNextTask` has not yet returned, in enumeration order, and `all` are
the tasks that `getTaskById` searches. -/
structure TaskGraph where
  all : List Task
  remaining : List Task
deriving DecidableEq

/-- Lookup of a task by identifier (`TaskGraph::getTaskById`). -/
def TaskGraph.getTaskById (tg : TaskGraph) (i : TaskId) : Option Task :=
  tg.all.find? (fun t => decide (t.taskId = i))

/-- The output record `MemReq` (declared in the header, modelled from the
assignments of lines 116-120). -/
structure MemReq where
  ctid : Nat
  isWrite : Bool
  numOfBytes : Nat
  address : Nat
  bbid : Nat
deriving DecidableEq

/-- The queue entry `MemReqContainer`: a request and its synthesized time. -/
structure MemReqContainer where
  req : MemReq
  reqTime : ct_timestamp
deriving DecidableEq

/-- The per-context record `ctid_current_state` (declared in the header,
modelled from the fields the source reads and writes).  The iterator
`currentBB` is the index of the next basic-block action in `currentBBCol`. -/
structure ctid_current_state where
  terminated : Bool
  blocked : Bool
  currentTask : Task
  nextTaskId : TaskId
  taskCurrTime : ct_timestamp
  taskRate : ct_timestamp
  currentBBCol : List BasicBlockAction
  currentBB : Nat
deriving DecidableEq

/-- The ways in which a call can fail to return. -/
inductive Fault where
  | divisionByZero
  | assertionFailed
  | emptyQueue
deriving DecidableEq

deriving instance DecidableEq for Except

/-- The object state of a `TraceWrapper`: the task graph, the table
`contechState` (a map ordered by context id, kept as a list of entries), the
merge queue `memReqQ` (kept in push order), `lastOpTime`, and a log of the
tasks handed to `delete`. -/
structure State where
  tg : TaskGraph
  contechState : List (ContextId × ctid_current_state)
  memReqQ : List MemReqContainer
  lastOpTime : ct_timestamp
  deleted : List Task
deriving DecidableEq

/-- The state after the constructor has read the graph `tasks`. -/
def State.init (tasks : List Task) : State :=
  { tg := ⟨tasks, tasks⟩, contechState := [], memReqQ := [], lastOpTime := 0, deleted := [] }

/-! ## getSequenceTask (lines 53-70) -/

/-- The loop of `getSequenceTask` over the successors, with the running value
of `possible_succ`. -/
def getSequenceTaskLoop (selfId : ContextId) : List TaskId → TaskId → TaskId
  | [], possible_succ => possible_succ
  | i :: rest, possible_succ =>
    if i.getContextId = selfId then
      if possible_succ = TaskId.zero ∨ TaskId.lt i possible_succ = true then
        getSequenceTaskLoop selfId rest i
      else
        getSequenceTaskLoop selfId rest possible_succ
    else
      getSequenceTaskLoop selfId rest possible_succ

/-- Scan the successor tasks and find the next in sequence. -/
def getSequenceTask (succ : List TaskId) (selfId : ContextId) : TaskId :=
  getSequenceTaskLoop selfId succ TaskId.zero

/-! ## populateQueue (lines 74-234) -/

/-- The expression `0x1 << pow_size` of line 118: a left shift of the 32 bit
`int` value 1.  The shift count is taken modulo 32, as the shift instruction
of the machine does, and the result is kept as a 32 bit pattern.  Up to
`pow_size = 30` this is `2 ^ pow_size`; from 31 on the `int` overflows. -/
def shiftOne32 (pow_size : Nat) : Nat := (1 <<< (pow_size % 32)) % 2 ^ 32

/-- The request built at lines 116-121 for memory action `ma` of basic-block
action `tbb`, for the table entry with key `key`, at time `tempCurrent`. -/
def mkReq (key : ContextId) (tbb : BasicBlockAction) (tempCurrent : ct_timestamp)
    (ma : MemoryAction) : MemReqContainer :=
  { req :=
      { ctid := key
        isWrite := decide (ma.type = action_type.action_type_mem_write)
        numOfBytes := shiftOne32 ma.pow_size
        address := ma.addr
        bbid := tbb.basic_block_id }
    reqTime := tempCurrent }

/-- The loop over the memory actions of one basic-block action (lines
112-125): each one is pushed onto the queue and counted. -/
def pushMemOps (key : ContextId) (tbb : BasicBlockAction) (tempCurrent : ct_timestamp) :
    List MemoryAction → List MemReqContainer → Nat → List MemReqContainer × Nat
  | [], q, addedMemOps => (q, addedMemOps)
  | ma :: rest, q, addedMemOps =>
    pushMemOps key tbb tempCurrent rest (q ++ [mkReq key tbb tempCurrent ma]) (addedMemOps + 1)

/-- What the advance loop leaves behind: the local copies `tempCurrent` and
`f`, the queue and the counter. -/
structure AdvanceResult where
  tempCurrent : ct_timestamp
  f : Nat
  memReqQ : List MemReqContainer
  addedMemOps : Nat
deriving DecidableEq

/-- The advance loop (lines 104-128) over the basic-block actions from the
iterator `f` to the end of the collection. -/
def advanceLoop (key : ContextId) (start tempRate : ct_timestamp) :
    List BasicBlockAction → AdvanceResult → AdvanceResult
  | [], r => r
  | tbb :: rest, r =>
    if r.tempCurrent ≤ start then
      let p := pushMemOps key tbb r.tempCurrent tbb.memOps r.memReqQ r.addedMemOps
      advanceLoop key start tempRate rest
        { tempCurrent := tsAdd r.tempCurrent tempRate, f := r.f + 1,
          memReqQ := p.1, addedMemOps := p.2 }
    else r

/-- The rate computed at a task switch (lines 176-187). -/
def switchRate (blocked : Bool) (nt : Task) (taskCurrTime : ct_timestamp) : ct_timestamp :=
  if blocked = true then 0
  else
    let bbc := if nt.bbCount = 0 then 1 else nt.bbCount
    tsSub nt.endTime taskCurrTime / bbc

/-- The shared variables of one pass of `populateQueue` over the table. -/
structure Pass where
  memReqQ : List MemReqContainer
  addedMemOps : Nat
  deleted : List Task
deriving DecidableEq

/-- The body of the loop over `contechState` (lines 92-198) for one table
entry `(key, tempState)` and the pulled task `currentTask`. -/
def processState (tg : TaskGraph) (currentTask : Task) (key : ContextId)
    (tempState : ctid_current_state) (p : Pass) : Except Fault (ctid_current_state × Pass) :=
  let ctui := currentTask.taskId
  let start := currentTask.startTime
  if tempState.terminated = true then .ok (tempState, p)
  else
    let t := tempState.currentTask
    let r := advanceLoop key start tempState.taskRate
      (tempState.currentBBCol.drop tempState.currentBB)
      { tempCurrent := tempState.taskCurrTime, f := tempState.currentBB,
        memReqQ := p.memReqQ, addedMemOps := p.addedMemOps }
    if ctui = tempState.nextTaskId then
      if t.contextId ≠ tempState.nextTaskId.getContextId ∨ tempState.nextTaskId = TaskId.zero then
        .ok ({ tempState with terminated := true },
          { memReqQ := r.memReqQ, addedMemOps := r.addedMemOps, deleted := p.deleted ++ [t] })
      else
        let adopted : Option Task :=
          if ctui = tempState.nextTaskId then some currentTask
          else tg.getTaskById tempState.nextTaskId
        match adopted with
        | none => .error Fault.assertionFailed
        | some nt =>
          let blocked := !decide (nt.type = task_type.task_type_basic_blocks)
          .ok ({ terminated := tempState.terminated
                 blocked := blocked
                 currentTask := nt
                 nextTaskId := getSequenceTask nt.successorTasks nt.contextId
                 taskCurrTime := nt.startTime
                 taskRate := switchRate blocked nt nt.startTime
                 currentBBCol := nt.basicBlockActions
                 currentBB := 0 },
            { memReqQ := r.memReqQ, addedMemOps := r.addedMemOps, deleted := p.deleted ++ [t] })
    else if r.tempCurrent < start then
      .ok ({ tempState with blocked := true },
        { memReqQ := r.memReqQ, addedMemOps := r.addedMemOps, deleted := p.deleted })
    else
      .ok ({ tempState with currentBB := r.f, taskCurrTime := r.tempCurrent },
        { memReqQ := r.memReqQ, addedMemOps := r.addedMemOps, deleted := p.deleted })

/-- The loop over all entries of `contechState` (lines 90-199), in the order
of the table. -/
def processStates (tg : TaskGraph) (currentTask : Task) :
    List (ContextId × ctid_current_state) → Pass →
      Except Fault (List (ContextId × ctid_current_state) × Pass)
  | [], p => .ok ([], p)
  | (key, tempState) :: rest, p =>
    match processState tg currentTask key tempState p with
    | .error e => .error e
    | .ok (st, p1) =>
      match processStates tg currentTask rest p1 with
      | .error e => .error e
      | .ok (rest1, p2) => .ok ((key, st) :: rest1, p2)

/-- The test `contechState.find(ctci) == contechState.end()` negated. -/
def tracked (cs : List (ContextId × ctid_current_state)) (ctci : ContextId) : Bool :=
  cs.any (fun e => decide (e.1 = ctci))

/-- The entry of the table for a context id, if there is one. -/
def findState (cs : List (ContextId × ctid_current_state)) (ctci : ContextId) :
    Option ctid_current_state :=
  match cs with
  | [] => none
  | (k, st) :: rest => if k = ctci then some st else findState rest ctci

/-- The assignment `contechState[ctci] = tempState` for a key that is not yet
in the table: the entry is placed in key order. -/
def insertState (ctci : ContextId) (st : ctid_current_state) :
    List (ContextId × ctid_current_state) → List (ContextId × ctid_current_state)
  | [] => [(ctci, st)]
  | (k, s) :: rest =>
    if ctci < k then (ctci, st) :: (k, s) :: rest
    else (k, s) :: insertState ctci st rest

/-- The state created for a newly observed context (lines 207-226). -/
def newState (currentTask : Task) : Except Fault ctid_current_state :=
  let start := currentTask.startTime
  if currentTask.type = task_type.task_type_basic_blocks then
    if currentTask.bbCount = 0 then .error Fault.divisionByZero
    else
      .ok { terminated := false
            blocked := false
            currentTask := currentTask
            nextTaskId := getSequenceTask currentTask.successorTasks currentTask.contextId
            taskCurrTime := start
            taskRate := tsSub currentTask.endTime start / currentTask.bbCount
            currentBBCol := currentTask.basicBlockActions
            currentBB := 0 }
  else
    .ok { terminated := false
          blocked := true
          currentTask := currentTask
          nextTaskId := getSequenceTask currentTask.successorTasks currentTask.contextId
          taskCurrTime := start
          taskRate := 0
          currentBBCol := currentTask.basicBlockActions
          currentBB := 0 }

/-- The body of the `while` loop of `populateQueue` (lines 83-228) for the
pulled task `currentTask`; `addedMemOps` is the counter on entry.  The result
is the new object state and the counter. -/
def processTask (currentTask : Task) (s : State) (addedMemOps : Nat) :
    Except Fault (State × Nat) :=
  match processStates s.tg currentTask s.contechState
      { memReqQ := s.memReqQ, addedMemOps := addedMemOps, deleted := s.deleted } with
  | .error e => .error e
  | .ok (cs, p) =>
    if tracked cs currentTask.contextId = true then
      .ok ({ s with contechState := cs, memReqQ := p.memReqQ, deleted := p.deleted },
        p.addedMemOps)
    else
      match newState currentTask with
      | .error e => .error e
      | .ok st =>
        .ok ({ s with contechState := insertState currentTask.contextId st cs,
                      memReqQ := p.memReqQ, deleted := p.deleted },
          p.addedMemOps)

/-- The `while` loop of `populateQueue` (line 81 and line 230) over the tasks
that the graph has not yet returned. -/
def populateLoop : List Task → State → Nat → Except Fault (State × Nat)
  | [], s, addedMemOps => .ok ({ s with tg := { s.tg with remaining := [] } }, addedMemOps)
  | currentTask :: rest, s, addedMemOps =>
    match processTask currentTask { s with tg := { s.tg with remaining := rest } } addedMemOps with
    | .error e => .error e
    | .ok (s1, added1) =>
      if added1 > 0 then .ok (s1, added1)
      else populateLoop rest s1 added1

/-- Populates the memory request queue with additional requests; the result
is the new state and the returned count. -/
def populateQueue (s : State) : Except Fault (State × Nat) :=
  populateLoop s.tg.remaining s 0

/-! ## The merge queue -/

/-- Modelled from the spec: the top of the merge queue is an entry of
smallest time; among entries of equal time the one pushed first is taken
(the comparison of the queue is declared in the header). -/
def queueTop : List MemReqContainer → Option MemReqContainer
  | [] => none
  | x :: rest =>
    match queueTop rest with
    | none => some x
    | some y => if x.reqTime ≤ y.reqTime then some x else some y

/-- Modelled from the spec: `pop` removes the entry that `queueTop` returns
and keeps all others. -/
def queuePop : List MemReqContainer → List MemReqContainer
  | [] => []
  | x :: rest =>
    match queueTop rest with
    | none => []
    | some y => if x.reqTime ≤ y.reqTime then rest else x :: queuePop rest

/-! ## getNextMemoryRequest (lines 29-48) -/

/-- The part of `getNextMemoryRequest` after the refill (lines 41-47). -/
def popRequest (s : State) : Except Fault (State × Nat × Option MemReq) :=
  match queueTop s.memReqQ with
  | none => .error Fault.emptyQueue
  | some nextReq =>
    .ok ({ s with memReqQ := queuePop s.memReqQ, lastOpTime := nextReq.reqTime },
      1, some nextReq.req)

/-- Populates a `MemReq` with the next memory request; the result is the new
state, the returned integer and the request written to `memR`, if any. -/
def getNextMemoryRequest (s : State) : Except Fault (State × Nat × Option MemReq) :=
  if s.memReqQ = [] then
    match populateQueue s with
    | .error e => .error e
    | .ok (s1, added) =>
      if added = 0 then .ok (s1, 0, none)
      else popRequest s1
  else popRequest s

/-! ## Callers and reference functions used in the statements -/

/-- Calls `getNextMemoryRequest` `n` times in a row and lists the value of
`lastOpTime` after each call that returned 1.  A call that does not return
ends the list. -/
def returnedTimes : Nat → State → List ct_timestamp
  | 0, _ => []
  | n + 1, s =>
    match getNextMemoryRequest s with
    | .error _ => []
    | .ok (s1, ret, _) =>
      if ret = 1 then s1.lastOpTime :: returnedTimes n s1 else returnedTimes n s1

/-- Calls `getNextMemoryRequest` until it returns 0 and lists the requests
obtained, each with the `lastOpTime` recorded for it; `none` when a call does
not return or when `fuel` calls did not reach a return of 0. -/
def drain : Nat → State → Option (List (MemReq × ct_timestamp) × State)
  | 0, _ => none
  | fuel + 1, s =>
    match getNextMemoryRequest s with
    | .error _ => none
    | .ok (s1, _, none) => some ([], s1)
    | .ok (s1, _, some r) =>
      match drain fuel s1 with
      | none => none
      | some (rs, s2) => some ((r, s1.lastOpTime) :: rs, s2)

/-- Number of memory actions in the basic-block actions of a task. -/
def memActionCount (t : Task) : Nat :=
  (t.basicBlockActions.map (fun bb => bb.memOps.length)).sum

/-- The basic-block actions that the advance loop visits, each with the value
of the cursor at which it is visited. -/
def emittedBlocks (start tempRate : ct_timestamp) :
    List BasicBlockAction → ct_timestamp → List (BasicBlockAction × ct_timestamp)
  | [], _ => []
  | tbb :: rest, cur =>
    if cur ≤ start then (tbb, cur) :: emittedBlocks start tempRate rest (tsAdd cur tempRate)
    else []

/-- The requests of a list of visited basic-block actions: one for every
memory action, in sequence order. -/
def requestsOf (key : ContextId) : List (BasicBlockAction × ct_timestamp) → List MemReqContainer
  | [] => []
  | (tbb, t) :: rest => tbb.memOps.map (mkReq key tbb t) ++ requestsOf key rest

/-- The cursor after `m` additions of the rate. -/
def cursorAfter (tempRate : ct_timestamp) : Nat → ct_timestamp → ct_timestamp
  | 0, cur => cur
  | m + 1, cur => cursorAfter tempRate m (tsAdd cur tempRate)

/-- What the specification asks of the successor resolver: `r` is the
smallest identifier among the entries of `succ` with context `selfId`, and
the sentinel when there is no such entry. -/
def IsSmallestSameContext (succ : List TaskId) (selfId : ContextId) (r : TaskId) : Prop :=
  ((∃ i ∈ succ, i.getContextId = selfId) →
      r ∈ succ ∧ r.getContextId = selfId ∧
        ∀ i ∈ succ, i.getContextId = selfId → TaskId.le r i = true) ∧
    ((∀ i ∈ succ, i.getContextId ≠ selfId) → r = TaskId.zero)

/-! ## Example graphs -/

/-- A read of four bytes. -/
def exRead : MemoryAction := ⟨action_type.action_type_mem_read, 2, 4096⟩

/-- A write of eight bytes. -/
def exWrite : MemoryAction := ⟨action_type.action_type_mem_write, 3, 8192⟩

/-- An executing task of context 1 from time 0 to time 10 with two basic
blocks of one memory action each and no successor. -/
def exTaskA : Task :=
  { taskId := ⟨1, 1⟩, contextId := 1, startTime := 0, endTime := 10,
    type := task_type.task_type_basic_blocks, successorTasks := [],
    basicBlockActions := [⟨100, [exRead]⟩, ⟨101, [exWrite]⟩], bbCount := 2 }

/-- A synchronizing task of context 2 starting at time 20. -/
def exTaskB : Task :=
  { taskId := ⟨2, 1⟩, contextId := 2, startTime := 20, endTime := 30,
    type := task_type.task_type_sync, successorTasks := [],
    basicBlockActions := [], bbCount := 0 }

/-- A synchronizing task of context 3 starting at time 30. -/
def exTaskC : Task :=
  { taskId := ⟨3, 1⟩, contextId := 3, startTime := 30, endTime := 40,
    type := task_type.task_type_sync, successorTasks := [],
    basicBlockActions := [], bbCount := 0 }

/-- An executing task of context 1 from time 0 to time 1 with two basic
blocks: its rate is `1 / 2 = 0`. -/
def exTaskShort : Task :=
  { taskId := ⟨1, 1⟩, contextId := 1, startTime := 0, endTime := 1,
    type := task_type.task_type_basic_blocks, successorTasks := [],
    basicBlockActions := [⟨100, [exRead]⟩, ⟨101, [exWrite]⟩], bbCount := 2 }

/-- The basic-block actions visited for one table entry while the pulled task
`currentTask` is processed: none for a terminated entry, otherwise those the
advance loop visits from the stored position and cursor. -/
def visited (currentTask : Task) (st : ctid_current_state) :
    List (BasicBlockAction × ct_timestamp) :=
  if st.terminated = true then []
  else
    emittedBlocks currentTask.startTime st.taskRate (st.currentBBCol.drop st.currentBB)
      st.taskCurrTime

/-- The requests pushed for all entries of the table, in table order, while
the pulled task `currentTask` is processed. -/
def tableRequests (currentTask : Task) :
    List (ContextId × ctid_current_state) → List MemReqContainer
  | [] => []
  | (key, st) :: rest =>
    requestsOf key (visited currentTask st) ++ tableRequests currentTask rest

/-- The table holds at most one entry for a context id. -/
def UniqueKeys (cs : List (ContextId × ctid_current_state)) : Prop :=
  (cs.map (fun e => e.1)).Nodup

/-- The entry `st` of context `c` is left alone between the object states `s`
and `s1`: the table of `s1` still holds `st` for `c`, still with one entry for
a context id, and the queue of `s1` is the queue of `s` followed by requests
none of which carries the id `c`. -/
def InertBetween (s s1 : State) (c : ContextId) (st : ctid_current_state) : Prop :=
  UniqueKeys s1.contechState ∧ findState s1.contechState c = some st ∧
    ∃ pushed, s1.memReqQ = s.memReqQ ++ pushed ∧ ∀ r ∈ pushed, r.req.ctid ≠ c

/-- A terminated entry whose task still has basic-block actions. -/
def exTerminatedEntry : ctid_current_state :=
  { terminated := true, blocked := false, currentTask := exTaskA,
    nextTaskId := TaskId.zero, taskCurrTime := 0, taskRate := 5,
    currentBBCol := exTaskA.basicBlockActions, currentBB := 0 }

/-- A synchronizing task of context 5 starting at time 30. -/
def exTaskFive : Task :=
  { taskId := ⟨5, 2⟩, contextId := 5, startTime := 30, endTime := 40,
    type := task_type.task_type_sync, successorTasks := [],
    basicBlockActions := [], bbCount := 0 }

/-- An object state whose table has the terminated entry for context 5 and a
live entry for context 7. -/
def exStateTerminated : State :=
  { tg := ⟨[], [exTaskB]⟩
    contechState :=
      [(5, exTerminatedEntry), (7, { exTerminatedEntry with terminated := false })]
    memReqQ := [], lastOpTime := 0, deleted := [] }

/-- The object state after one step of `populateQueue` for the pulled task
`currentTask` (the state itself when the step does not return). -/
def afterStep (currentTask : Task) (s : State) : State :=
  match processTask currentTask s 0 with
  | .ok (s1, _) => s1
  | .error _ => s

/-- An executing task of context 1 from time 0 to time 10 with one basic
block, followed in its context by the task `1:2`. -/
def exTaskPrev : Task :=
  { taskId := ⟨1, 1⟩, contextId := 1, startTime := 0, endTime := 10,
    type := task_type.task_type_basic_blocks, successorTasks := [⟨1, 2⟩],
    basicBlockActions := [⟨100, [exRead]⟩], bbCount := 1 }

/-- An executing task `1:2` of context 1 from time 10 to time 20 whose block
count is 0. -/
def exTaskEmpty : Task :=
  { taskId := ⟨1, 2⟩, contextId := 1, startTime := 10, endTime := 20,
    type := task_type.task_type_basic_blocks, successorTasks := [],
    basicBlockActions := [], bbCount := 0 }

/-- The requests that a step pushes for context `c`. -/
def pushedFor (c : ContextId) (pushed : List MemReqContainer) : List MemReqContainer :=
  pushed.filter (fun r => decide (r.req.ctid = c))

/-- One memory action met by the advance loop: the key of the table entry, the
basic-block action, the cursor time at which it is visited and the memory
action itself. -/
structure Emission where
  key : ContextId
  bb : BasicBlockAction
  time : ct_timestamp
  ma : MemoryAction
deriving DecidableEq

/-- The memory actions of a list of visited basic-block actions, in sequence
order. -/
def emissionsOf (key : ContextId) : List (BasicBlockAction × ct_timestamp) → List Emission
  | [] => []
  | (tbb, t) :: rest => tbb.memOps.map (fun ma => ⟨key, tbb, t, ma⟩) ++ emissionsOf key rest

/-- The memory actions met in one pass over the table for the pulled task
`currentTask`, in table order. -/
def tableEmissions (currentTask : Task) :
    List (ContextId × ctid_current_state) → List Emission
  | [] => []
  | (key, st) :: rest =>
    emissionsOf key (visited currentTask st) ++ tableEmissions currentTask rest

/-- The queue entry `r` is the request of the memory action `x`: context id,
write flag, address, basic-block id and time are those of `x`, and the byte
count is `2 ^ pow_size` when `pow_size` is at most 30. -/
def IsRequestFor (x : Emission) (r : MemReqContainer) : Prop :=
  r.req.ctid = x.key ∧
    (r.req.isWrite = true ↔ x.ma.type = action_type.action_type_mem_write) ∧
    (x.ma.pow_size ≤ 30 → r.req.numOfBytes = 2 ^ x.ma.pow_size) ∧
    r.req.address = x.ma.addr ∧ r.req.bbid = x.bb.basic_block_id ∧ r.reqTime = x.time

/-- A read with the size class 32. -/
def exReadWide : MemoryAction := ⟨action_type.action_type_mem_read, 32, 4096⟩

/-- An executing task of context 1 from time 0 to time 10 with one basic
block whose memory action has the size class 32. -/
def exTaskWide : Task :=
  { taskId := ⟨1, 1⟩, contextId := 1, startTime := 0, endTime := 10,
    type := task_type.task_type_basic_blocks, successorTasks := [],
    basicBlockActions := [⟨100, [exReadWide]⟩], bbCount := 1 }

/-- The rate `r = (e - s) / n` of a task with start `s`, end `e` and block
count `n` (integer division). -/
def rateOf (T : Task) : Nat := (T.endTime - T.startTime) / T.bbCount

/-- The requests for the `k`-th basic-block action of task `T` (counted from
0) with the request time `s + k * r`: one for each of its memory actions. -/
def blockRequestsAt (key : ContextId) (T : Task) (k : Nat) : List MemReqContainer :=
  match T.basicBlockActions[k]? with
  | some bb => bb.memOps.map (mkReq key bb (T.startTime + k * rateOf T))
  | none => []

/-- The entry `st` interpolates task `T`: it is live, `T` is its current task,
its rate is that of `T`, and its cursor stands at `s + k * r` for its block
position `k`. -/
def Interpolating (T : Task) (st : ctid_current_state) : Prop :=
  st.terminated = false ∧ st.currentTask = T ∧ st.currentBBCol = T.basicBlockActions ∧
    st.taskRate = rateOf T ∧ st.currentBB ≤ T.basicBlockActions.length ∧
    st.taskCurrTime = T.startTime + st.currentBB * rateOf T

/-- The table entry that the body of the table loop leaves for the entry `st`
when the pulled task is `currentTask`, written as a function of the two. -/
def entryAfter (currentTask : Task) (st : ctid_current_state) : ctid_current_state :=
  if st.terminated = true then st
  else if currentTask.taskId = st.nextTaskId then
    if st.currentTask.contextId ≠ st.nextTaskId.getContextId ∨ st.nextTaskId = TaskId.zero then
      { st with terminated := true }
    else
      { terminated := false
        blocked := !decide (currentTask.type = task_type.task_type_basic_blocks)
        currentTask := currentTask
        nextTaskId := getSequenceTask currentTask.successorTasks currentTask.contextId
        taskCurrTime := currentTask.startTime
        taskRate :=
          switchRate (!decide (currentTask.type = task_type.task_type_basic_blocks))
            currentTask currentTask.startTime
        currentBBCol := currentTask.basicBlockActions
        currentBB := 0 }
  else if cursorAfter st.taskRate (visited currentTask st).length st.taskCurrTime <
      currentTask.startTime then
    { st with blocked := true }
  else
    { st with currentBB := st.currentBB + (visited currentTask st).length
              taskCurrTime :=
                cursorAfter st.taskRate (visited currentTask st).length st.taskCurrTime }

/-- The task that the body of the table loop hands to `delete` for the entry
`st` when the pulled task is `currentTask`: the current task of a live entry
that awaits the pulled task, and nothing otherwise. -/
def releasedBy (currentTask : Task) (st : ctid_current_state) : List Task :=
  if st.terminated = false ∧ currentTask.taskId = st.nextTaskId then [st.currentTask] else []

/-- The tasks handed to `delete` in one pass over the table, in table order. -/
def tableReleased (currentTask : Task) :
    List (ContextId × ctid_current_state) → List Task
  | [] => []
  | (_, st) :: rest => releasedBy currentTask st ++ tableReleased currentTask rest

/-- The table after one pass for the pulled task `currentTask`. -/
def tableAfter (currentTask : Task) (cs : List (ContextId × ctid_current_state)) :
    List (ContextId × ctid_current_state) :=
  cs.map (fun e => (e.1, entryAfter currentTask e.2))

/-- The object states that a `TraceWrapper` built on the graph `tasks` can be
in: the state after the constructor, the state after one more turn of the
`while` loop of `populateQueue` (the next task is pulled and processed), and
the state after a request has been popped from the queue. -/
inductive Reachable (tasks : List Task) : State → Prop where
  | init : Reachable tasks (State.init tasks)
  | pull (s s1 : State) (currentTask : Task) (rest : List Task) (a a1 : Nat) :
      Reachable tasks s → s.tg.remaining = currentTask :: rest →
      processTask currentTask { s with tg := { s.tg with remaining := rest } } a = .ok (s1, a1) →
      Reachable tasks s1
  | pop (s s1 : State) (ret : Nat) (out : Option MemReq) :
      Reachable tasks s → popRequest s = .ok (s1, ret, out) → Reachable tasks s1

/-- The awaited task of an entry is the sentinel or a successor of the current
task in the context of the current task. -/
def NextIsSuccessor (st : ctid_current_state) : Prop :=
  st.nextTaskId = TaskId.zero ∨
    (st.nextTaskId ∈ st.currentTask.successorTasks ∧
      st.nextTaskId.getContextId = st.currentTask.contextId)

/-- The object state after `exTaskPrev`, the first task of the graph
`exTaskPrev, exTaskEmpty`, has been pulled and processed. -/
def exStateAdopted : State :=
  afterStep exTaskPrev
    { State.init [exTaskPrev, exTaskEmpty] with
      tg := ⟨[exTaskPrev, exTaskEmpty], [exTaskEmpty]⟩ }

/-- The entry of context 1 in `exStateAdopted`: it interpolates `exTaskPrev`
and awaits the task `1:2`. -/
def exEntryPrev : ctid_current_state :=
  { terminated := false, blocked := false, currentTask := exTaskPrev,
    nextTaskId := ⟨1, 2⟩, taskCurrTime := 0, taskRate := 10,
    currentBBCol := exTaskPrev.basicBlockActions, currentBB := 0 }

/-- The object state after a call of `populateQueue` (the state itself when
the call does not return). -/
def afterPopulate (s : State) : State :=
  match populateQueue s with
  | .ok (s1, _) => s1
  | .error _ => s

/-- The entry of context 1 after the adoption of `exTaskA`: cursor 0, rate 5,
no basic-block action visited yet. -/
def exEntryA : ctid_current_state :=
  { terminated := false, blocked := false, currentTask := exTaskA,
    nextTaskId := TaskId.zero, taskCurrTime := 0, taskRate := 5,
    currentBBCol := exTaskA.basicBlockActions, currentBB := 0 }

/-- A task is well-timed: it does not end before it starts, its end is a valid
time stamp, and its block count is the number of its basic-block actions. -/
def TaskOk (T : Task) : Prop :=
  T.startTime ≤ T.endTime ∧ T.endTime < tsMod ∧ T.bbCount = T.basicBlockActions.length

/-- The task sequence of every context of the graph is monotonic in time:
every task is well-timed, and a task whose identifier is listed among the
successors of a task `T` with the context id of `T` starts no earlier than `T`
ends. -/
def WellTimed (tasks : List Task) : Prop :=
  (∀ T ∈ tasks, TaskOk T) ∧
    ∀ T ∈ tasks, ∀ U ∈ tasks, U.taskId ∈ T.successorTasks →
      U.taskId.getContextId = T.contextId → T.endTime ≤ U.startTime

/-- The invariant of a table entry over the graph `tasks`: its current task is
a task of the graph, the awaited task is a same-context successor or the
sentinel, the block collection is that of the current task, and the cursor
stands at `start + currentBB * rate`, where a full run through the collection
at this rate does not pass the end of the task. -/
def Tracking (tasks : List Task) (st : ctid_current_state) : Prop :=
  st.currentTask ∈ tasks ∧ NextIsSuccessor st ∧
    st.currentBBCol = st.currentTask.basicBlockActions ∧
    st.currentBB ≤ st.currentBBCol.length ∧
    st.taskCurrTime = st.currentTask.startTime + st.currentBB * st.taskRate ∧
    st.currentBBCol.length * st.taskRate ≤ st.currentTask.endTime - st.currentTask.startTime

/-- No entry of the table of `s` has a smaller cursor in the table of `s1`. -/
def CursorsAdvance (s s1 : State) : Prop :=
  ∀ c st, findState s.contechState c = some st →
    ∃ st1, findState s1.contechState c = some st1 ∧ st.taskCurrTime ≤ st1.taskCurrTime

/-- The object state after `exTaskEmpty`, the second task of the graph
`exTaskPrev, exTaskEmpty`, has been pulled and processed. -/
def exStateSwitched : State :=
  afterStep exTaskEmpty { exStateAdopted with tg := { exStateAdopted.tg with remaining := [] } }

/-- The graph has unique task identifiers, and the context id of every task
is the context component of its identifier. -/
def GraphOk (tasks : List Task) : Prop :=
  (tasks.map (fun T => T.taskId)).Nodup ∧ ∀ T ∈ tasks, T.contextId = T.taskId.getContextId

/-- The invariant behind single ownership: the tasks still to come have
unique identifiers and consistent context ids; the table has one entry per
context id, keyed by the context of its current task; the current tasks and
the released tasks have been pulled before; current tasks are pairwise
distinct, released tasks are pairwise distinct, and no live entry holds a
released task. -/
def OwnInv (s : State) : Prop :=
  (s.tg.remaining.map (fun T => T.taskId)).Nodup ∧
    (∀ T ∈ s.tg.remaining, T.contextId = T.taskId.getContextId) ∧
    UniqueKeys s.contechState ∧
    (∀ e ∈ s.contechState, e.2.currentTask.contextId = e.1 ∧
      e.2.currentTask.taskId ∉ s.tg.remaining.map (fun T => T.taskId)) ∧
    (∀ d ∈ s.deleted, d.taskId ∉ s.tg.remaining.map (fun T => T.taskId)) ∧
    (s.contechState.map (fun e => e.2.currentTask.taskId)).Nodup ∧
    (s.deleted.map (fun T => T.taskId)).Nodup ∧
    ∀ e ∈ s.contechState, e.2.terminated = false →
      e.2.currentTask.taskId ∉ s.deleted.map (fun T => T.taskId)

/-! ## Theorems -/

/-- C1 (the code departs from the claim): on the graph `exTaskA, exTaskB,
exTaskC`, whose tasks are enumerated in increasing start-time order, three
calls of `getNextMemoryRequest` all return 1 and the recorded times are
0, 5, 0: the third is smaller than the second. -/
theorem returnedTimes_decrease :
    ([exTaskA, exTaskB, exTaskC].map (fun t => t.startTime)).Sorted (fun a b => a ≤ b) ∧
      returnedTimes 3 (State.init [exTaskA, exTaskB, exTaskC]) = [0, 5, 0] ∧
      ¬ (returnedTimes 3 (State.init [exTaskA, exTaskB, exTaskC])).Sorted (fun a b => a ≤ b) := by
  decide

/-- C3 (the code departs from the claim): draining the graph `exTaskA` yields
no request although the adopted task has two memory actions, and draining
the graph `exTaskA, exTaskB, exTaskC`, in which every task is adopted by its
context, yields four requests although the tasks of the graph have two memory
actions in all. -/
theorem drain_count_differs :
    (drain 4 (State.init [exTaskA])).map (fun r => r.1.length) = some 0 ∧
      (drain 4 (State.init [exTaskA])).map
          (fun r => r.2.contechState.map (fun e => (e.1, e.2.currentTask))) =
        some [(1, exTaskA)] ∧
      memActionCount exTaskA = 2 ∧
      (drain 8 (State.init [exTaskA, exTaskB, exTaskC])).map (fun r => r.1.map (fun x => x.2)) =
        some [0, 5, 0, 5] ∧
      (drain 8 (State.init [exTaskA, exTaskB, exTaskC])).map
          (fun r => r.2.contechState.map (fun e => (e.1, e.2.currentTask))) =
        some [(1, exTaskA), (2, exTaskB), (3, exTaskC)] ∧
      ([exTaskA, exTaskB, exTaskC].map memActionCount).sum = 2 := by
  decide

theorem pushMemOps_eq (key : ContextId) (tbb : BasicBlockAction) (t : ct_timestamp)
    (mas : List MemoryAction) (q : List MemReqContainer) (a : Nat) :
    pushMemOps key tbb t mas q a = (q ++ mas.map (mkReq key tbb t), a + mas.length) := by
  induction mas generalizing q a with
  | nil => simp [pushMemOps]
  | cons ma rest ih =>
    simp only [pushMemOps, ih, List.map_cons, List.length_cons, List.append_assoc,
      List.singleton_append, Prod.mk.injEq, true_and]
    omega

theorem advanceLoop_eq (key : ContextId) (start rate : ct_timestamp)
    (bbs : List BasicBlockAction) (r : AdvanceResult) :
    advanceLoop key start rate bbs r =
      { tempCurrent := cursorAfter rate (emittedBlocks start rate bbs r.tempCurrent).length
          r.tempCurrent
        f := r.f + (emittedBlocks start rate bbs r.tempCurrent).length
        memReqQ := r.memReqQ ++ requestsOf key (emittedBlocks start rate bbs r.tempCurrent)
        addedMemOps :=
          r.addedMemOps + (requestsOf key (emittedBlocks start rate bbs r.tempCurrent)).length } := by
  induction bbs generalizing r with
  | nil => simp [advanceLoop, emittedBlocks, requestsOf, cursorAfter]
  | cons tbb rest ih =>
    by_cases h : r.tempCurrent ≤ start
    · simp only [advanceLoop, h, if_true, ih, pushMemOps_eq, emittedBlocks, List.length_cons,
        cursorAfter, requestsOf, List.append_assoc, List.length_append, List.length_map,
        AdvanceResult.mk.injEq, true_and]
      omega
    · simp [advanceLoop, h, emittedBlocks, requestsOf, cursorAfter]

theorem requestsOf_length (key : ContextId) (vs : List (BasicBlockAction × ct_timestamp)) :
    (requestsOf key vs).length = (vs.map (fun v => v.1.memOps.length)).sum := by
  induction vs with
  | nil => simp [requestsOf]
  | cons v rest ih =>
    obtain ⟨bb, t⟩ := v
    simp [requestsOf, ih]

theorem processState_pushes (tg : TaskGraph) (currentTask : Task) (key : ContextId)
    (st : ctid_current_state) (p : Pass) :
    ∃ st1 dl, processState tg currentTask key st p =
      .ok (st1, { memReqQ := p.memReqQ ++ requestsOf key (visited currentTask st)
                  addedMemOps := p.addedMemOps + (requestsOf key (visited currentTask st)).length
                  deleted := dl }) := by
  unfold processState visited
  cases hterm : st.terminated
  · simp only [Bool.false_eq_true, if_false, advanceLoop_eq]
    split_ifs with h1 h2 h3
    · exact ⟨_, _, rfl⟩
    · exact ⟨_, _, rfl⟩
    · exact ⟨_, _, rfl⟩
    · exact ⟨_, _, rfl⟩
  · exact ⟨st, p.deleted, by simp [requestsOf]⟩

theorem processState_terminated (tg : TaskGraph) (currentTask : Task) (key : ContextId)
    (st : ctid_current_state) (p : Pass) (ht : st.terminated = true) :
    processState tg currentTask key st p = .ok (st, p) := by
  simp [processState, ht]

theorem processStates_pushes (tg : TaskGraph) (currentTask : Task)
    (cs : List (ContextId × ctid_current_state)) (p : Pass) :
    ∃ cs1 dl, processStates tg currentTask cs p =
      .ok (cs1, { memReqQ := p.memReqQ ++ tableRequests currentTask cs
                  addedMemOps := p.addedMemOps + (tableRequests currentTask cs).length
                  deleted := dl }) ∧
      cs1.map (fun e => e.1) = cs.map (fun e => e.1) ∧
      ∀ c st, findState cs c = some st → st.terminated = true → findState cs1 c = some st := by
  induction cs generalizing p with
  | nil => exact ⟨[], p.deleted, by simp [processStates, tableRequests], rfl, by simp [findState]⟩
  | cons e rest ih =>
    obtain ⟨key, st⟩ := e
    obtain ⟨st1, dl1, h1⟩ := processState_pushes tg currentTask key st p
    obtain ⟨cs1, dl2, h2, hk, hf⟩ := ih
      { memReqQ := p.memReqQ ++ requestsOf key (visited currentTask st)
        addedMemOps := p.addedMemOps + (requestsOf key (visited currentTask st)).length
        deleted := dl1 }
    refine ⟨(key, st1) :: cs1, dl2, ?_, ?_, ?_⟩
    · simp only [processStates, h1, h2, tableRequests, List.append_assoc, List.length_append,
        Nat.add_assoc]
    · simp [hk]
    · intro c s hc hs
      by_cases hkc : key = c
      · simp only [findState, hkc, if_true, Option.some.injEq] at hc ⊢
        subst hc
        rw [processState_terminated _ _ _ _ _ hs] at h1
        simp only [Except.ok.injEq, Prod.mk.injEq] at h1
        exact h1.1.symm
      · simp only [findState, hkc, if_false] at hc ⊢
        exact hf c s hc hs

theorem requestsOf_ctid (key : ContextId) (vs : List (BasicBlockAction × ct_timestamp))
    (r : MemReqContainer) (h : r ∈ requestsOf key vs) : r.req.ctid = key := by
  induction vs with
  | nil => simp [requestsOf] at h
  | cons v rest ih =>
    obtain ⟨bb, t⟩ := v
    simp only [requestsOf, List.mem_append, List.mem_map] at h
    rcases h with ⟨ma, _, rfl⟩ | h
    · rfl
    · exact ih h

theorem tableRequests_mem (currentTask : Task) (cs : List (ContextId × ctid_current_state))
    (r : MemReqContainer) (h : r ∈ tableRequests currentTask cs) :
    ∃ e ∈ cs, r ∈ requestsOf e.1 (visited currentTask e.2) := by
  induction cs with
  | nil => simp [tableRequests] at h
  | cons e rest ih =>
    obtain ⟨key, st⟩ := e
    simp only [tableRequests, List.mem_append] at h
    rcases h with h | h
    · exact ⟨(key, st), List.mem_cons_self _ _, h⟩
    · obtain ⟨e, he, hr⟩ := ih h
      exact ⟨e, List.mem_cons_of_mem _ he, hr⟩

theorem findState_mem_keys (cs : List (ContextId × ctid_current_state)) (c : ContextId)
    (st : ctid_current_state) (h : findState cs c = some st) : c ∈ cs.map (fun e => e.1) := by
  induction cs with
  | nil => simp [findState] at h
  | cons e rest ih =>
    obtain ⟨k, s⟩ := e
    by_cases hk : k = c
    · simp [hk]
    · simp only [findState, hk, if_false] at h
      simp [ih h]

theorem findState_of_mem (cs : List (ContextId × ctid_current_state)) (hu : UniqueKeys cs)
    (k : ContextId) (st : ctid_current_state) (h : (k, st) ∈ cs) : findState cs k = some st := by
  induction cs with
  | nil => simp at h
  | cons e rest ih =>
    obtain ⟨k1, s1⟩ := e
    simp only [UniqueKeys, List.map_cons, List.nodup_cons] at hu
    simp only [List.mem_cons, Prod.mk.injEq] at h
    rcases h with ⟨rfl, rfl⟩ | h
    · simp [findState]
    · have hne : k1 ≠ k := by
        intro heq
        apply hu.1
        rw [heq]
        exact List.mem_map_of_mem (fun e => e.1) h
      simp only [findState, hne, if_false]
      exact ih hu.2 h

theorem tracked_iff (cs : List (ContextId × ctid_current_state)) (c : ContextId) :
    tracked cs c = true ↔ c ∈ cs.map (fun e => e.1) := by
  simp only [tracked, List.any_eq_true, decide_eq_true_eq, List.mem_map]

theorem insertState_keys (k : ContextId) (st : ctid_current_state)
    (cs : List (ContextId × ctid_current_state)) :
    ((insertState k st cs).map (fun e => e.1)).Perm (k :: cs.map (fun e => e.1)) := by
  induction cs with
  | nil => simp [insertState]
  | cons e rest ih =>
    obtain ⟨k1, s1⟩ := e
    by_cases h : k < k1
    · simp [insertState, h]
    · simp only [insertState, h, if_false, List.map_cons]
      exact (List.Perm.cons k1 ih).trans (List.Perm.swap k k1 _)

theorem findState_insertState_ne (k c : ContextId) (st : ctid_current_state)
    (cs : List (ContextId × ctid_current_state)) (h : k ≠ c) :
    findState (insertState k st cs) c = findState cs c := by
  induction cs with
  | nil => simp [insertState, findState, h]
  | cons e rest ih =>
    obtain ⟨k1, s1⟩ := e
    by_cases hlt : k < k1
    · simp [insertState, hlt, findState, h]
    · simp only [insertState, hlt, if_false, findState, ih]

theorem uniqueKeys_insertState (k : ContextId) (st : ctid_current_state)
    (cs : List (ContextId × ctid_current_state)) (hu : UniqueKeys cs)
    (hk : tracked cs k = false) : UniqueKeys (insertState k st cs) := by
  unfold UniqueKeys at hu ⊢
  rw [(insertState_keys k st cs).nodup_iff, List.nodup_cons]
  refine ⟨?_, hu⟩
  intro hmem
  rw [← tracked_iff, hk] at hmem
  exact Bool.false_ne_true hmem

/-- What one step of `populateQueue` does to the queue, the counter and the
table, as far as the later statements need it. -/
theorem processTask_step (currentTask : Task) (s : State) (a : Nat) (s1 : State) (a1 : Nat)
    (h : processTask currentTask s a = .ok (s1, a1)) :
    s1.memReqQ = s.memReqQ ++ tableRequests currentTask s.contechState ∧
      a1 = a + (tableRequests currentTask s.contechState).length ∧
      s1.tg = s.tg ∧ s1.lastOpTime = s.lastOpTime ∧
      (UniqueKeys s.contechState → UniqueKeys s1.contechState) ∧
      ∀ c st, findState s.contechState c = some st → st.terminated = true →
        findState s1.contechState c = some st := by
  unfold processTask at h
  obtain ⟨cs1, dl, hps, hkeys, hfind⟩ := processStates_pushes s.tg currentTask s.contechState
    { memReqQ := s.memReqQ, addedMemOps := a, deleted := s.deleted }
  rw [hps] at h
  simp only at h
  by_cases htr : tracked cs1 currentTask.contextId = true
  · simp only [htr, if_true, Except.ok.injEq, Prod.mk.injEq] at h
    obtain ⟨rfl, rfl⟩ := h
    refine ⟨rfl, rfl, rfl, rfl, ?_, hfind⟩
    intro hu
    simpa [UniqueKeys, hkeys] using hu
  · simp only [htr, if_false] at h
    cases hn : newState currentTask with
    | error e => simp [hn] at h
    | ok st0 =>
      simp only [hn, Except.ok.injEq, Prod.mk.injEq] at h
      obtain ⟨rfl, rfl⟩ := h
      have htr2 : tracked cs1 currentTask.contextId = false := by simpa using htr
      refine ⟨rfl, rfl, rfl, rfl, ?_, ?_⟩
      · intro hu
        apply uniqueKeys_insertState _ _ _ _ htr2
        simpa [UniqueKeys, hkeys] using hu
      · intro c st hc hs
        have hc1 := hfind c st hc hs
        have hne : currentTask.contextId ≠ c := by
          intro heq
          have := findState_mem_keys _ _ _ hc1
          rw [← tracked_iff, ← heq, htr2] at this
          exact Bool.false_ne_true this
        simp only [findState_insertState_ne _ _ _ _ hne]
        exact hc1

theorem populateLoop_rel (R : State → Nat → State → Nat → Prop)
    (hrefl : ∀ s a rest, R s a { s with tg := { s.tg with remaining := rest } } a)
    (htrans : ∀ s a s1 a1 s2 a2, R s a s1 a1 → R s1 a1 s2 a2 → R s a s2 a2)
    (hstep : ∀ ct s a s1 a1, processTask ct s a = .ok (s1, a1) → R s a s1 a1)
    (ts : List Task) (s : State) (a : Nat) (s1 : State) (a1 : Nat)
    (h : populateLoop ts s a = .ok (s1, a1)) : R s a s1 a1 := by
  induction ts generalizing s a with
  | nil =>
    simp only [populateLoop, Except.ok.injEq, Prod.mk.injEq] at h
    obtain ⟨rfl, rfl⟩ := h
    exact hrefl s a []
  | cons ct rest ih =>
    simp only [populateLoop] at h
    cases hp : processTask ct { s with tg := { s.tg with remaining := rest } } a with
    | error e => simp [hp] at h
    | ok v =>
      obtain ⟨s2, a2⟩ := v
      simp only [hp] at h
      have h12 := htrans _ _ _ _ _ _ (hrefl s a rest) (hstep _ _ _ _ _ hp)
      by_cases hpos : a2 > 0
      · simp only [hpos, if_true, Except.ok.injEq, Prod.mk.injEq] at h
        obtain ⟨rfl, rfl⟩ := h
        exact h12
      · simp only [hpos, if_false] at h
        exact htrans _ _ _ _ _ _ h12 (ih _ _ h)

theorem processTask_inert (currentTask : Task) (s : State) (a : Nat) (s1 : State) (a1 : Nat)
    (c : ContextId) (st : ctid_current_state)
    (hu : UniqueKeys s.contechState) (hc : findState s.contechState c = some st)
    (ht : st.terminated = true) (h : processTask currentTask s a = .ok (s1, a1)) :
    InertBetween s s1 c st := by
  obtain ⟨hq, _, _, _, hu1, hf⟩ := processTask_step currentTask s a s1 a1 h
  refine ⟨hu1 hu, hf c st hc ht, _, hq, ?_⟩
  intro r hr hctid
  obtain ⟨e, he, hre⟩ := tableRequests_mem _ _ _ hr
  obtain ⟨k, st2⟩ := e
  have hk : k = c := by rw [← hctid]; exact (requestsOf_ctid _ _ _ hre).symm
  subst hk
  have := findState_of_mem _ hu _ _ he
  rw [hc, Option.some.injEq] at this
  subst this
  simp [visited, ht, requestsOf] at hre

/-- C10: once the entry of a context has `terminated = true`, a step of
`populateQueue` for any pulled task, and a whole call of `populateQueue`,
leave every field of the entry as it was (also when a pulled task carries the
same context id, which is then neither resumed nor adopted again), keep one
entry for a context id, and push no request that carries the id of that
context. -/
theorem terminated_state_inert (s : State) (c : ContextId) (st : ctid_current_state)
    (hu : UniqueKeys s.contechState) (hc : findState s.contechState c = some st)
    (ht : st.terminated = true) :
    (∀ currentTask a s1 a1, processTask currentTask s a = .ok (s1, a1) →
        InertBetween s s1 c st) ∧
      (∀ s1 n, populateQueue s = .ok (s1, n) → InertBetween s s1 c st) := by
  constructor
  · intro currentTask a s1 a1 h
    exact processTask_inert currentTask s a s1 a1 c st hu hc ht h
  · intro s1 n h
    have key := populateLoop_rel
      (fun x _ y _ => UniqueKeys x.contechState → findState x.contechState c = some st →
        InertBetween x y c st)
      (fun x _ rest hx hf => ⟨hx, hf, [], by simp, by simp⟩)
      (fun x _ y _ z _ hxy hyz hx hf => by
        obtain ⟨hy, hfy, p1, hq1, hp1⟩ := hxy hx hf
        obtain ⟨hz, hfz, p2, hq2, hp2⟩ := hyz hy hfy
        refine ⟨hz, hfz, p1 ++ p2, by rw [hq2, hq1, List.append_assoc], ?_⟩
        intro r hr
        rcases List.mem_append.mp hr with h1 | h2
        · exact hp1 r h1
        · exact hp2 r h2)
      (fun ct x a y b hstep hx hf => processTask_inert ct x a y b c st hx hf ht hstep)
      s.tg.remaining s 0 s1 n h
    exact key hu hc

/-- An instance of C10: the terminated entry of context 5 is left alone by the
step for a pulled task of context 5, which pushes two requests of context 7. -/
theorem terminated_state_inert_witness :
    UniqueKeys exStateTerminated.contechState ∧
      findState exStateTerminated.contechState 5 = some exTerminatedEntry ∧
      exTerminatedEntry.terminated = true ∧
      processTask exTaskFive exStateTerminated 0 =
        .ok (afterStep exTaskFive exStateTerminated, 2) ∧
      InertBetween exStateTerminated (afterStep exTaskFive exStateTerminated) 5
        exTerminatedEntry :=
  have hu : UniqueKeys exStateTerminated.contechState := by
    unfold UniqueKeys
    decide
  ⟨hu, by decide, by decide, by decide,
    (terminated_state_inert exStateTerminated 5 exTerminatedEntry hu (by decide)
      (by decide)).1 exTaskFive 0 _ 2 (by decide)⟩

theorem populateQueue_count (s s1 : State) (n : Nat) (h : populateQueue s = .ok (s1, n)) :
    s1.memReqQ.length = s.memReqQ.length + n := by
  have key := populateLoop_rel
    (fun x a y b => y.memReqQ.length + a = x.memReqQ.length + b)
    (fun x a rest => rfl)
    (fun x a y b z c hxy hyz => by omega)
    (fun ct x a y b hstep => by
      obtain ⟨hq, ha, _⟩ := processTask_step ct x a y b hstep
      rw [hq, ha, List.length_append]
      omega)
    s.tg.remaining s 0 s1 n h
  simpa using key

theorem TaskId.le_trans (a b c : TaskId) (hab : TaskId.le a b = true)
    (hbc : TaskId.le b c = true) : TaskId.le a c = true := by
  obtain ⟨a1, a2⟩ := a
  obtain ⟨b1, b2⟩ := b
  obtain ⟨c1, c2⟩ := c
  simp only [TaskId.le, TaskId.lt, Bool.not_eq_true', Bool.or_eq_false_iff,
    Bool.and_eq_false_imp, decide_eq_false_iff_not, decide_eq_true_eq, ContextId] at *
  omega

theorem TaskId.le_of_lt (a b : TaskId) (h : TaskId.lt a b = true) : TaskId.le a b = true := by
  obtain ⟨a1, a2⟩ := a
  obtain ⟨b1, b2⟩ := b
  simp only [TaskId.le, TaskId.lt, Bool.not_eq_true', Bool.or_eq_false_iff,
    Bool.and_eq_false_imp, decide_eq_false_iff_not, decide_eq_true_eq, Bool.or_eq_true,
    Bool.and_eq_true, ContextId] at *
  omega

theorem TaskId.le_refl (a : TaskId) : TaskId.le a a = true := by
  simp [TaskId.le, TaskId.lt]

theorem getSequenceTaskLoop_spec (selfId : ContextId) (l : List TaskId) (acc : TaskId)
    (hl : ∀ i ∈ l, i.getContextId = selfId → i ≠ TaskId.zero) :
    (getSequenceTaskLoop selfId l acc = acc ∨
        (getSequenceTaskLoop selfId l acc ∈ l ∧
          (getSequenceTaskLoop selfId l acc).getContextId = selfId)) ∧
      (acc ≠ TaskId.zero → TaskId.le (getSequenceTaskLoop selfId l acc) acc = true) ∧
      (∀ i ∈ l, i.getContextId = selfId →
        TaskId.le (getSequenceTaskLoop selfId l acc) i = true) ∧
      (acc = TaskId.zero → (∃ i ∈ l, i.getContextId = selfId) →
        getSequenceTaskLoop selfId l acc ∈ l ∧
          (getSequenceTaskLoop selfId l acc).getContextId = selfId) := by
  induction l generalizing acc with
  | nil => simp [getSequenceTaskLoop, TaskId.le_refl]
  | cons i rest ih =>
    have hrest : ∀ j ∈ rest, j.getContextId = selfId → j ≠ TaskId.zero :=
      fun j hj => hl j (List.mem_cons_of_mem _ hj)
    by_cases hm : i.getContextId = selfId
    · have hi0 : i ≠ TaskId.zero := hl i (List.mem_cons_self _ _) hm
      by_cases hc : acc = TaskId.zero ∨ TaskId.lt i acc = true
      · simp only [getSequenceTaskLoop, hm, if_true, hc]
        obtain ⟨h1, h2, h3, _⟩ := ih i hrest
        have hri := h2 hi0
        have hmem : getSequenceTaskLoop selfId rest i ∈ i :: rest ∧
            (getSequenceTaskLoop selfId rest i).getContextId = selfId := by
          rcases h1 with h1 | ⟨h1, h1c⟩
          · rw [h1]
            exact ⟨List.mem_cons_self _ _, hm⟩
          · exact ⟨List.mem_cons_of_mem _ h1, h1c⟩
        refine ⟨Or.inr hmem, ?_, ?_, fun _ _ => hmem⟩
        · intro hacc
          rcases hc with hc | hc
          · exact absurd hc hacc
          · exact TaskId.le_trans _ _ _ hri (TaskId.le_of_lt _ _ hc)
        · intro j hj hjc
          rcases List.mem_cons.mp hj with rfl | hj
          · exact hri
          · exact h3 j hj hjc
      · simp only [getSequenceTaskLoop, hm, if_true, hc, if_false]
        have hacc : acc ≠ TaskId.zero := fun h => hc (Or.inl h)
        have hnlt : TaskId.le acc i = true := by
          have : ¬ TaskId.lt i acc = true := fun h => hc (Or.inr h)
          simpa [TaskId.le] using this
        obtain ⟨h1, h2, h3, _⟩ := ih acc hrest
        refine ⟨?_, h2, ?_, fun h => absurd h hacc⟩
        · rcases h1 with h1 | ⟨h1, h1c⟩
          · exact Or.inl h1
          · exact Or.inr ⟨List.mem_cons_of_mem _ h1, h1c⟩
        · intro j hj hjc
          rcases List.mem_cons.mp hj with rfl | hj
          · exact TaskId.le_trans _ _ _ (h2 hacc) hnlt
          · exact h3 j hj hjc
    · simp only [getSequenceTaskLoop, hm, if_false]
      obtain ⟨h1, h2, h3, h4⟩ := ih acc hrest
      refine ⟨?_, h2, ?_, ?_⟩
      · rcases h1 with h1 | ⟨h1, h1c⟩
        · exact Or.inl h1
        · exact Or.inr ⟨List.mem_cons_of_mem _ h1, h1c⟩
      · intro j hj hjc
        rcases List.mem_cons.mp hj with rfl | hj
        · exact absurd hjc hm
        · exact h3 j hj hjc
      · intro hacc ⟨j, hj, hjc⟩
        rcases List.mem_cons.mp hj with rfl | hj
        · exact absurd hjc hm
        · obtain ⟨h5, h6⟩ := h4 hacc ⟨j, hj, hjc⟩
          exact ⟨List.mem_cons_of_mem _ h5, h6⟩

/-- C5 (the claim as stated fails): for the successor list `0:0, 0:5` and the
owner context 0 the entry `0:0` has the owner's context and is the smallest,
but `getSequenceTask` returns `0:5`. -/
theorem getSequenceTask_not_smallest :
    getSequenceTask [⟨0, 0⟩, ⟨0, 5⟩] 0 = ⟨0, 5⟩ ∧
      ¬ IsSmallestSameContext [⟨0, 0⟩, ⟨0, 5⟩] 0 (getSequenceTask [⟨0, 0⟩, ⟨0, 5⟩] 0) := by
  refine ⟨by decide, ?_⟩
  intro h
  have h1 := (h.1 ⟨⟨0, 0⟩, by decide, by decide⟩).2.2 ⟨0, 0⟩ (by decide) (by decide)
  exact absurd h1 (by decide)

/-- C5 (amended): for every successor list in which no entry of the owner's
context is the identifier 0, and every owner context, `getSequenceTask`
returns the smallest identifier among the entries of the owner's context, and
the sentinel 0 when there is no such entry. -/
theorem getSequenceTask_smallest (succ : List TaskId) (selfId : ContextId)
    (h0 : ∀ i ∈ succ, i.getContextId = selfId → i ≠ TaskId.zero) :
    IsSmallestSameContext succ selfId (getSequenceTask succ selfId) := by
  obtain ⟨h1, _, h3, h4⟩ := getSequenceTaskLoop_spec selfId succ TaskId.zero h0
  refine ⟨fun hex => ?_, fun hno => ?_⟩
  · obtain ⟨hm, hc⟩ := h4 rfl hex
    exact ⟨hm, hc, h3⟩
  · rcases h1 with h1 | ⟨hm, hc⟩
    · exact h1
    · exact absurd hc (hno _ hm)

/-- An instance of the amended C5: for the successors `1:7, 1:3, 2:9` and the
owner context 1 the result is `1:3`. -/
theorem getSequenceTask_smallest_witness :
    (∀ i ∈ [(⟨1, 7⟩ : TaskId), ⟨1, 3⟩, ⟨2, 9⟩], i.getContextId = 1 → i ≠ TaskId.zero) ∧
      getSequenceTask [⟨1, 7⟩, ⟨1, 3⟩, ⟨2, 9⟩] 1 = ⟨1, 3⟩ ∧
      IsSmallestSameContext [⟨1, 7⟩, ⟨1, 3⟩, ⟨2, 9⟩] 1
        (getSequenceTask [⟨1, 7⟩, ⟨1, 3⟩, ⟨2, 9⟩] 1) :=
  ⟨by decide, by decide,
    getSequenceTask_smallest [⟨1, 7⟩, ⟨1, 3⟩, ⟨2, 9⟩] 1 (by decide)⟩

/-- C8 (the code departs from the claim): when the first task of a graph is an
executing task with block count 0, the adoption of its context divides by the
block count and `populateQueue` does not return; when the same task is adopted
through a task switch the count 0 is replaced by 1 and the rate is
`(20 - 10) / 1 = 10`. -/
theorem adoption_divides_by_zero :
    newState exTaskEmpty = .error Fault.divisionByZero ∧
      populateQueue (State.init [exTaskEmpty]) = .error Fault.divisionByZero ∧
      (populateQueue (State.init [exTaskPrev, exTaskEmpty])).map
          (fun r => r.1.contechState.map (fun e => (e.1, e.2.currentTask, e.2.taskRate))) =
        .ok [(1, exTaskEmpty, 10)] := by
  decide

theorem shiftOne32_eq (n : Nat) (h : n ≤ 30) : shiftOne32 n = 2 ^ n := by
  unfold shiftOne32
  have h1 : n % 32 = n := Nat.mod_eq_of_lt (by omega)
  rw [h1, Nat.one_shiftLeft]
  apply Nat.mod_eq_of_lt
  exact Nat.pow_lt_pow_right (by decide) (by omega)

theorem isRequestFor_mkReq (key : ContextId) (bb : BasicBlockAction) (t : ct_timestamp)
    (ma : MemoryAction) : IsRequestFor ⟨key, bb, t, ma⟩ (mkReq key bb t ma) := by
  refine ⟨rfl, ?_, fun h => shiftOne32_eq _ h, rfl, rfl, rfl⟩
  simp [mkReq]

theorem requestsOf_related (key : ContextId) (vs : List (BasicBlockAction × ct_timestamp)) :
    List.Forall₂ IsRequestFor (emissionsOf key vs) (requestsOf key vs) := by
  induction vs with
  | nil => exact List.Forall₂.nil
  | cons v rest ih =>
    obtain ⟨bb, t⟩ := v
    simp only [emissionsOf, requestsOf]
    refine List.rel_append ?_ ih
    generalize bb.memOps = mas
    induction mas with
    | nil => exact List.Forall₂.nil
    | cons ma more ihm => exact List.Forall₂.cons (isRequestFor_mkReq key bb t ma) ihm

theorem tableRequests_related (currentTask : Task)
    (cs : List (ContextId × ctid_current_state)) :
    List.Forall₂ IsRequestFor (tableEmissions currentTask cs)
      (tableRequests currentTask cs) := by
  induction cs with
  | nil => exact List.Forall₂.nil
  | cons e rest ih =>
    obtain ⟨k, st⟩ := e
    simp only [tableEmissions, tableRequests]
    exact List.rel_append (requestsOf_related k _) ih

/-- C9 (the claim as stated fails): a memory action with the size class 32 is
emitted for context 1 at time 0; the request pushed for it has the byte count
1, the value of the 32 bit shift `0x1 << 32`, and not `2 ^ 32`. -/
theorem byte_count_overflows :
    (processTask exTaskB (afterStep exTaskWide (State.init [])) 0).map
        (fun r => r.1.memReqQ) = .ok [⟨⟨1, false, 1, 4096, 100⟩, 0⟩] ∧
      exReadWide.pow_size = 32 ∧ (1 : Nat) ≠ 2 ^ exReadWide.pow_size ∧
      (mkReq 1 ⟨100, [exReadWide]⟩ 0 exReadWide).req.numOfBytes ≠ 2 ^ exReadWide.pow_size := by
  decide

/-- C9 (amended): in a step of `populateQueue` for the pulled task
`currentTask`, the requests pushed correspond one to one and in order to the
memory actions `ma` of the basic-block actions `bb` visited for the table
entries at their cursor times `t`: the request for `ma` has `ctid` the key of
the entry, `isWrite` true exactly for a write, `address = ma.addr`,
`bbid = bb.basic_block_id`, request time `t`, and `numOfBytes = 2 ^ ma.pow_size`
whenever `ma.pow_size` is at most 30; the counter grows by the number of these
requests. -/
theorem pushed_requests_exact (currentTask : Task) (s : State) (a : Nat) (s1 : State)
    (a1 : Nat) (h : processTask currentTask s a = .ok (s1, a1)) :
    ∃ pushed, s1.memReqQ = s.memReqQ ++ pushed ∧
      List.Forall₂ IsRequestFor (tableEmissions currentTask s.contechState) pushed ∧
      a1 = a + (tableEmissions currentTask s.contechState).length := by
  obtain ⟨hq, ha, _⟩ := processTask_step currentTask s a s1 a1 h
  have hrel := tableRequests_related currentTask s.contechState
  exact ⟨_, hq, hrel, by rw [ha, hrel.length_eq]⟩

/-- An instance of the amended C9: the step for `exTaskB` after the adoption of
`exTaskA` meets a read of size class 2 at time 0 and a write of size class 3
at time 5 and pushes a read of 4 bytes and a write of 8 bytes with `ctid = 1`
at these times. -/
theorem pushed_requests_exact_witness :
    processTask exTaskB (afterStep exTaskA (State.init [])) 0 =
        .ok (afterStep exTaskB (afterStep exTaskA (State.init [])), 2) ∧
      tableEmissions exTaskB (afterStep exTaskA (State.init [])).contechState =
        [⟨1, ⟨100, [exRead]⟩, 0, exRead⟩, ⟨1, ⟨101, [exWrite]⟩, 5, exWrite⟩] ∧
      (afterStep exTaskB (afterStep exTaskA (State.init []))).memReqQ =
        [⟨⟨1, false, 4, 4096, 100⟩, 0⟩, ⟨⟨1, true, 8, 8192, 101⟩, 5⟩] ∧
      ∃ pushed,
        (afterStep exTaskB (afterStep exTaskA (State.init []))).memReqQ =
          (afterStep exTaskA (State.init [])).memReqQ ++ pushed ∧
        List.Forall₂ IsRequestFor
          (tableEmissions exTaskB (afterStep exTaskA (State.init [])).contechState) pushed ∧
        2 = 0 + (tableEmissions exTaskB (afterStep exTaskA (State.init [])).contechState).length :=
  ⟨by decide, by decide, by decide,
    pushed_requests_exact exTaskB (afterStep exTaskA (State.init [])) 0 _ 2 (by decide)⟩

theorem pushedFor_requestsOf_same (k : ContextId) (vs : List (BasicBlockAction × ct_timestamp)) :
    pushedFor k (requestsOf k vs) = requestsOf k vs := by
  unfold pushedFor
  rw [List.filter_eq_self]
  intro r hr
  simp [requestsOf_ctid k vs r hr]

theorem pushedFor_requestsOf_ne (k c : ContextId) (vs : List (BasicBlockAction × ct_timestamp))
    (h : k ≠ c) : pushedFor c (requestsOf k vs) = [] := by
  unfold pushedFor
  rw [List.filter_eq_nil_iff]
  intro r hr
  simp [requestsOf_ctid k vs r hr, h]

theorem pushedFor_append (c : ContextId) (xs ys : List MemReqContainer) :
    pushedFor c (xs ++ ys) = pushedFor c xs ++ pushedFor c ys := by
  simp [pushedFor]

theorem pushedFor_tableRequests_absent (currentTask : Task) (c : ContextId)
    (cs : List (ContextId × ctid_current_state)) (h : c ∉ cs.map (fun e => e.1)) :
    pushedFor c (tableRequests currentTask cs) = [] := by
  induction cs with
  | nil => rfl
  | cons e rest ih =>
    obtain ⟨k, st⟩ := e
    simp only [List.map_cons, List.mem_cons, not_or] at h
    simp only [tableRequests, pushedFor_append, ih h.2, List.append_nil]
    exact pushedFor_requestsOf_ne k c _ (fun hk => h.1 hk.symm)

theorem pushedFor_tableRequests (currentTask : Task) (c : ContextId)
    (st : ctid_current_state) (cs : List (ContextId × ctid_current_state))
    (hu : UniqueKeys cs) (hc : findState cs c = some st) :
    pushedFor c (tableRequests currentTask cs) = requestsOf c (visited currentTask st) := by
  induction cs with
  | nil => simp [findState] at hc
  | cons e rest ih =>
    obtain ⟨k, s0⟩ := e
    simp only [UniqueKeys, List.map_cons, List.nodup_cons] at hu
    simp only [tableRequests, pushedFor_append]
    by_cases hk : k = c
    · subst hk
      simp only [findState, if_true, Option.some.injEq] at hc
      subst hc
      rw [pushedFor_requestsOf_same, pushedFor_tableRequests_absent _ _ _ hu.1, List.append_nil]
    · simp only [findState, hk, if_false] at hc
      rw [pushedFor_requestsOf_ne k c _ hk, ih hu.2 hc, List.nil_append]

theorem emittedBlocks_rate_zero (start cur : ct_timestamp) (bbs : List BasicBlockAction)
    (hcur : cur < tsMod) :
    emittedBlocks start 0 bbs cur = if cur ≤ start then bbs.map (fun bb => (bb, cur)) else [] := by
  have hadd : tsAdd cur 0 = cur := by
    simp only [tsAdd, Nat.add_zero]
    exact Nat.mod_eq_of_lt hcur
  induction bbs with
  | nil => simp [emittedBlocks]
  | cons bb rest ih =>
    by_cases h : cur ≤ start
    · simp only [emittedBlocks, h, if_true, hadd, List.map_cons] at ih ⊢
      rw [ih]
    · simp [emittedBlocks, h]

/-- C6 (the claim as stated fails): after the task `exTaskShort` has been
adopted for context 1 the entry has rate 0, is not terminated and waits for the
sentinel; the step for the pulled task `exTaskB` of context 2, which is not the
awaited task, pushes two requests that carry the id 1. -/
theorem zero_rate_context_emits :
    (findState (afterStep exTaskShort (State.init [])).contechState 1).map
        (fun e => (e.taskRate, e.terminated, e.nextTaskId)) = some (0, false, TaskId.zero) ∧
      exTaskB.taskId ≠ TaskId.zero ∧
      (processTask exTaskB (afterStep exTaskShort (State.init [])) 0).map
          (fun r => r.1.memReqQ.map (fun x => (x.req.ctid, x.reqTime))) =
        .ok [(1, 0), (1, 0)] := by
  decide

/-- C6 (amended): for a tracked, non-terminated context `c` with rate 0, a step
of `populateQueue` for a pulled task pushes no request carrying the id `c` when
the stored cursor is later than the start of the pulled task (and none when no
basic-block action remains); when the cursor is not later than that start it
pushes one request for every memory action of every remaining basic-block
action, all at the stored cursor time. -/
theorem zero_rate_pushes (currentTask : Task) (s : State) (a : Nat) (s1 : State) (a1 : Nat)
    (c : ContextId) (st : ctid_current_state)
    (hu : UniqueKeys s.contechState) (hc : findState s.contechState c = some st)
    (hterm : st.terminated = false) (hrate : st.taskRate = 0)
    (hcur : st.taskCurrTime < tsMod)
    (h : processTask currentTask s a = .ok (s1, a1)) :
    ∃ pushed, s1.memReqQ = s.memReqQ ++ pushed ∧
      pushedFor c pushed =
        if st.taskCurrTime ≤ currentTask.startTime then
          requestsOf c ((st.currentBBCol.drop st.currentBB).map (fun bb => (bb, st.taskCurrTime)))
        else [] := by
  obtain ⟨hq, _⟩ := processTask_step currentTask s a s1 a1 h
  refine ⟨_, hq, ?_⟩
  rw [pushedFor_tableRequests currentTask c st _ hu hc]
  simp only [visited, hterm, Bool.false_eq_true, if_false, hrate,
    emittedBlocks_rate_zero _ _ _ hcur]
  split_ifs <;> simp [requestsOf]

/-- An instance of the amended C6: the entry of rate 0 left by the adoption of
`exTaskShort`, processed for the pulled task `exTaskB`. -/
theorem zero_rate_pushes_witness :
    UniqueKeys (afterStep exTaskShort (State.init [])).contechState ∧
      ∃ pushed,
        (afterStep exTaskB (afterStep exTaskShort (State.init []))).memReqQ =
          (afterStep exTaskShort (State.init [])).memReqQ ++ pushed ∧
        pushedFor 1 pushed =
          if (0 : Nat) ≤ exTaskB.startTime then
            requestsOf 1 ((exTaskShort.basicBlockActions.drop 0).map (fun bb => (bb, 0)))
          else [] :=
  have hu : UniqueKeys (afterStep exTaskShort (State.init [])).contechState := by
    unfold UniqueKeys
    decide
  ⟨hu,
    zero_rate_pushes exTaskB (afterStep exTaskShort (State.init [])) 0
      (afterStep exTaskB (afterStep exTaskShort (State.init []))) 2 1
      { terminated := false, blocked := false, currentTask := exTaskShort,
        nextTaskId := TaskId.zero, taskCurrTime := 0, taskRate := 0,
        currentBBCol := exTaskShort.basicBlockActions, currentBB := 0 }
      hu (by decide) rfl rfl (by decide) (by decide)⟩

theorem tsSub_eq (e s : ct_timestamp) (hse : s ≤ e) (he : e < tsMod) : tsSub e s = e - s := by
  have hs : s < tsMod := Nat.lt_of_le_of_lt hse he
  unfold tsSub
  rw [Nat.mod_eq_of_lt he, Nat.mod_eq_of_lt hs]
  have h1 : e + tsMod - s = (e - s) + tsMod := by
    simp only [ct_timestamp] at *
    omega
  rw [h1, Nat.add_mod_right]
  apply Nat.mod_eq_of_lt
  simp only [ct_timestamp] at *
  omega

theorem tsAdd_eq (a b : ct_timestamp) (h : a + b < tsMod) : tsAdd a b = a + b :=
  Nat.mod_eq_of_lt h

/-- What the body of the table loop does for a live entry when the pulled
task is not the awaited one (lines 190-198). -/
theorem processState_no_switch (tg : TaskGraph) (currentTask : Task) (key : ContextId)
    (st : ctid_current_state) (p : Pass) (hterm : st.terminated = false)
    (hne : currentTask.taskId ≠ st.nextTaskId) :
    processState tg currentTask key st p =
      .ok (if cursorAfter st.taskRate (visited currentTask st).length st.taskCurrTime <
              currentTask.startTime then
            { st with blocked := true }
          else
            { st with currentBB := st.currentBB + (visited currentTask st).length
                      taskCurrTime :=
                        cursorAfter st.taskRate (visited currentTask st).length st.taskCurrTime },
        { memReqQ := p.memReqQ ++ requestsOf key (visited currentTask st)
          addedMemOps := p.addedMemOps + (requestsOf key (visited currentTask st)).length
          deleted := p.deleted }) := by
  unfold processState visited
  simp only [hterm, Bool.false_eq_true, if_false, advanceLoop_eq, hne]
  split_ifs <;> rfl

/-- What the body of the table loop does for a live entry when the pulled
task is the awaited one and the entry does not terminate (lines 149-188). -/
theorem processState_switch (tg : TaskGraph) (currentTask : Task) (key : ContextId)
    (st : ctid_current_state) (p : Pass) (hterm : st.terminated = false)
    (heq : currentTask.taskId = st.nextTaskId)
    (hctx : st.currentTask.contextId = st.nextTaskId.getContextId)
    (hnz : st.nextTaskId ≠ TaskId.zero) :
    processState tg currentTask key st p =
      .ok ({ terminated := false
             blocked := !decide (currentTask.type = task_type.task_type_basic_blocks)
             currentTask := currentTask
             nextTaskId := getSequenceTask currentTask.successorTasks currentTask.contextId
             taskCurrTime := currentTask.startTime
             taskRate :=
               switchRate (!decide (currentTask.type = task_type.task_type_basic_blocks))
                 currentTask currentTask.startTime
             currentBBCol := currentTask.basicBlockActions
             currentBB := 0 },
        { memReqQ := p.memReqQ ++ requestsOf key (visited currentTask st)
          addedMemOps := p.addedMemOps + (requestsOf key (visited currentTask st)).length
          deleted := p.deleted ++ [st.currentTask] }) := by
  unfold processState visited
  simp only [hterm, Bool.false_eq_true, if_false, advanceLoop_eq, heq, if_true, hctx,
    ne_eq, not_true_eq_false, hnz, or_self]

theorem rateOf_mul_le (T : Task) : T.bbCount * rateOf T ≤ T.endTime - T.startTime := by
  unfold rateOf
  rw [Nat.mul_comm]
  exact Nat.div_mul_le_self _ _

theorem emitted_interpolated (T : Task) (key : ContextId) (start : ct_timestamp)
    (hbound : T.startTime + T.basicBlockActions.length * rateOf T < tsMod)
    (bbs : List BasicBlockAction) (pre : List BasicBlockAction)
    (hsplit : T.basicBlockActions = pre ++ bbs) :
    requestsOf key (emittedBlocks start (rateOf T) bbs (T.startTime + pre.length * rateOf T)) =
        (List.range' pre.length
          (emittedBlocks start (rateOf T) bbs
            (T.startTime + pre.length * rateOf T)).length).flatMap (blockRequestsAt key T) ∧
      pre.length +
          (emittedBlocks start (rateOf T) bbs (T.startTime + pre.length * rateOf T)).length ≤
        T.basicBlockActions.length ∧
      cursorAfter (rateOf T)
          (emittedBlocks start (rateOf T) bbs (T.startTime + pre.length * rateOf T)).length
          (T.startTime + pre.length * rateOf T) =
        T.startTime +
          (pre.length +
            (emittedBlocks start (rateOf T) bbs
              (T.startTime + pre.length * rateOf T)).length) * rateOf T := by
  induction bbs generalizing pre with
  | nil => simp [emittedBlocks, requestsOf, cursorAfter, hsplit]
  | cons bb rest ih =>
    by_cases hle : T.startTime + pre.length * rateOf T ≤ start
    · have hsplit2 : T.basicBlockActions = (pre ++ [bb]) ++ rest := by simp [hsplit]
      have hlen : (pre ++ [bb]).length = pre.length + 1 := by simp
      have hk : pre.length < T.basicBlockActions.length := by
        rw [hsplit]
        simp
      have hmul : (pre.length + 1) * rateOf T ≤ T.basicBlockActions.length * rateOf T :=
        Nat.mul_le_mul_right _ hk
      have hadd : tsAdd (T.startTime + pre.length * rateOf T) (rateOf T) =
          T.startTime + (pre.length + 1) * rateOf T := by
        rw [tsAdd_eq]
        · rw [Nat.add_mul, Nat.one_mul, Nat.add_assoc]
        · have : T.startTime + pre.length * rateOf T + rateOf T =
              T.startTime + (pre.length + 1) * rateOf T := by
            rw [Nat.add_mul, Nat.one_mul, Nat.add_assoc]
          rw [this]
          exact Nat.lt_of_le_of_lt (Nat.add_le_add_left hmul _) hbound
      have hget : T.basicBlockActions[pre.length]? = some bb := by
        rw [hsplit, List.getElem?_append_right (Nat.le_refl _)]
        simp
      obtain ⟨h1, h2, h3⟩ := ih (pre ++ [bb]) hsplit2
      rw [hlen] at h1 h2 h3
      simp only [emittedBlocks, hle, if_true, hadd, requestsOf, List.length_cons,
        List.range'_succ, List.flatMap_cons, cursorAfter]
      refine ⟨?_, ?_, ?_⟩
      · rw [h1]
        congr 1
        simp [blockRequestsAt, hget]
      · omega
      · rw [h3]
        congr 2
        omega
    · simp [emittedBlocks, hle, requestsOf, cursorAfter, hsplit]

theorem emittedBlocks_maximal (start rate : ct_timestamp) (bbs : List BasicBlockAction)
    (cur : ct_timestamp) (hb : cur + bbs.length * rate < tsMod) :
    (∀ i, i < (emittedBlocks start rate bbs cur).length → cur + i * rate ≤ start) ∧
      ((emittedBlocks start rate bbs cur).length < bbs.length →
        start < cur + (emittedBlocks start rate bbs cur).length * rate) := by
  induction bbs generalizing cur with
  | nil => simp [emittedBlocks]
  | cons bb rest ih =>
    by_cases h : cur ≤ start
    · have hlen : cur + (rest.length + 1) * rate = cur + rate + rest.length * rate := by
        rw [Nat.add_mul, Nat.one_mul]
        simp only [ct_timestamp] at *
        omega
      rw [List.length_cons, hlen] at hb
      have hadd : tsAdd cur rate = cur + rate := by
        apply tsAdd_eq
        exact Nat.lt_of_le_of_lt (Nat.le_add_right _ _) hb
      obtain ⟨h1, h2⟩ := ih (cur + rate) hb
      simp only [emittedBlocks, h, if_true, hadd, List.length_cons]
      constructor
      · intro i hi
        cases i with
        | zero => simpa using h
        | succ j =>
          have := h1 j (by omega)
          rw [Nat.add_mul, Nat.one_mul]
          simp only [ct_timestamp] at *
          omega
      · intro hlt
        have := h2 (by omega)
        rw [Nat.add_mul, Nat.one_mul]
        simp only [ct_timestamp] at *
        omega
    · simp only [emittedBlocks, h, if_false, List.length_nil, Nat.zero_mul, Nat.add_zero]
      exact ⟨fun i hi => absurd hi (Nat.not_lt_zero _), fun _ => Nat.lt_of_not_le h⟩

theorem visited_interpolating (T : Task) (key : ContextId) (currentTask : Task)
    (st : ctid_current_state)
    (hbound : T.startTime + T.basicBlockActions.length * rateOf T < tsMod)
    (hI : Interpolating T st) :
    requestsOf key (visited currentTask st) =
        (List.range' st.currentBB (visited currentTask st).length).flatMap
          (blockRequestsAt key T) ∧
      st.currentBB + (visited currentTask st).length ≤ T.basicBlockActions.length ∧
      cursorAfter st.taskRate (visited currentTask st).length st.taskCurrTime =
        T.startTime + (st.currentBB + (visited currentTask st).length) * rateOf T := by
  obtain ⟨hterm, _, hcol, hrate, hpos, hcur⟩ := hI
  have hpre : (T.basicBlockActions.take st.currentBB).length = st.currentBB := by
    rw [List.length_take]
    exact Nat.min_eq_left hpos
  have h := emitted_interpolated T key currentTask.startTime hbound
    (T.basicBlockActions.drop st.currentBB) (T.basicBlockActions.take st.currentBB)
    (List.take_append_drop _ _).symm
  rw [hpre] at h
  simp only [visited, hterm, Bool.false_eq_true, if_false, hcol, hrate, hcur]
  exact h

theorem visited_interpolating_maximal (T : Task) (currentTask : Task)
    (st : ctid_current_state)
    (hbound : T.startTime + T.basicBlockActions.length * rateOf T < tsMod)
    (hI : Interpolating T st) :
    (∀ i, i < (visited currentTask st).length →
        T.startTime + (st.currentBB + i) * rateOf T ≤ currentTask.startTime) ∧
      (st.currentBB + (visited currentTask st).length < T.basicBlockActions.length →
        currentTask.startTime <
          T.startTime + (st.currentBB + (visited currentTask st).length) * rateOf T) := by
  obtain ⟨hterm, _, hcol, hrate, hpos, hcur⟩ := hI
  have hdrop : (T.basicBlockActions.drop st.currentBB).length =
      T.basicBlockActions.length - st.currentBB := List.length_drop _ _
  have hsplit : T.basicBlockActions.length * rateOf T =
      st.currentBB * rateOf T + (T.basicBlockActions.length - st.currentBB) * rateOf T := by
    rw [← Nat.add_mul]
    congr 1
    omega
  have hb : T.startTime + st.currentBB * rateOf T +
      (T.basicBlockActions.drop st.currentBB).length * rateOf T < tsMod := by
    rw [hdrop, Nat.add_assoc, ← hsplit]
    exact hbound
  obtain ⟨h1, h2⟩ := emittedBlocks_maximal currentTask.startTime (rateOf T)
    (T.basicBlockActions.drop st.currentBB) (T.startTime + st.currentBB * rateOf T) hb
  have hvis : visited currentTask st =
      emittedBlocks currentTask.startTime (rateOf T) (T.basicBlockActions.drop st.currentBB)
        (T.startTime + st.currentBB * rateOf T) := by
    simp only [visited, hterm, Bool.false_eq_true, if_false, hcol, hrate, hcur]
  rw [hvis]
  constructor
  · intro i hi
    have := h1 i hi
    rw [Nat.add_mul, ← Nat.add_assoc]
    exact this
  · intro hlt
    have := h2 (by rw [hdrop]; omega)
    rw [Nat.add_mul, ← Nat.add_assoc]
    exact this

/-- C7: let `T` be an executing task with start `s`, end `e > s` and block
count `n > 0` equal to the number of its basic-block actions, and let
`r = (e - s) / n`.  Then (1) each time `s + k * r` with `k < n` lies in
`[s, e)`; (2) adopting `T` for a newly observed context and (3) adopting it
through a task switch both leave an entry that interpolates `T` from position
0 and cursor `s` at rate `r`; (4) every step of `populateQueue` for an entry
that interpolates `T`, for a pulled task with start `S`, pushes exactly the
requests of the basic-block actions `k = currentBB, ..., currentBB + m - 1` of
`T`, one per memory action, those of the `k`-th with request time `s + k * r`,
where `m` is the largest number with `s + k * r ≤ S` for all these `k` (the
next basic-block action, if there is one, has a time later than `S`); and as
long as the pulled task is not the awaited one the entry interpolates `T`
afterwards as well. -/
theorem interpolated_request_times (T : Task)
    (htype : T.type = task_type.task_type_basic_blocks)
    (hlen : T.bbCount = T.basicBlockActions.length) (hn : 0 < T.bbCount)
    (hse : T.startTime < T.endTime) (he : T.endTime < tsMod) :
    (∀ k, k < T.bbCount →
        T.startTime ≤ T.startTime + k * rateOf T ∧ T.startTime + k * rateOf T < T.endTime) ∧
      (∃ st0, newState T = .ok st0 ∧ Interpolating T st0 ∧ st0.currentBB = 0) ∧
      (∀ tg key st p, st.terminated = false → T.taskId = st.nextTaskId →
        st.currentTask.contextId = st.nextTaskId.getContextId → st.nextTaskId ≠ TaskId.zero →
        ∃ st1 p1, processState tg T key st p = .ok (st1, p1) ∧ Interpolating T st1 ∧
          st1.currentBB = 0) ∧
      (∀ tg currentTask key st p, Interpolating T st →
        ∃ st1 p1 m, processState tg currentTask key st p = .ok (st1, p1) ∧
          st.currentBB + m ≤ T.bbCount ∧
          (∀ i, i < m →
            T.startTime + (st.currentBB + i) * rateOf T ≤ currentTask.startTime) ∧
          (st.currentBB + m < T.bbCount →
            currentTask.startTime < T.startTime + (st.currentBB + m) * rateOf T) ∧
          p1.memReqQ =
            p.memReqQ ++ (List.range' st.currentBB m).flatMap (blockRequestsAt key T) ∧
          p1.addedMemOps =
            p.addedMemOps +
              ((List.range' st.currentBB m).flatMap (blockRequestsAt key T)).length ∧
          (currentTask.taskId ≠ st.nextTaskId → Interpolating T st1)) := by
  have hmul := rateOf_mul_le T
  have hbound : T.startTime + T.basicBlockActions.length * rateOf T < tsMod := by
    rw [← hlen]
    simp only [ct_timestamp] at *
    omega
  have hsub : tsSub T.endTime T.startTime = T.endTime - T.startTime :=
    tsSub_eq _ _ (Nat.le_of_lt hse) he
  have hn0 : T.bbCount ≠ 0 := by omega
  refine ⟨?_, ?_, ?_, ?_⟩
  · intro k hk
    refine ⟨Nat.le_add_right _ _, ?_⟩
    have h1 : (k + 1) * rateOf T ≤ T.bbCount * rateOf T := Nat.mul_le_mul_right _ hk
    by_cases hr : rateOf T = 0
    · rw [hr, Nat.mul_zero, Nat.add_zero]
      exact hse
    · have h2 : k * rateOf T < (k + 1) * rateOf T := by
        rw [Nat.add_mul, Nat.one_mul]
        omega
      simp only [ct_timestamp] at *
      omega
  · refine ⟨{ terminated := false
              blocked := false
              currentTask := T
              nextTaskId := getSequenceTask T.successorTasks T.contextId
              taskCurrTime := T.startTime
              taskRate := tsSub T.endTime T.startTime / T.bbCount
              currentBBCol := T.basicBlockActions
              currentBB := 0 },
      by simp only [newState, htype, if_true, hn0, if_false], ?_, rfl⟩
    exact ⟨rfl, rfl, rfl, by simp only [hsub, rateOf], Nat.zero_le _, by simp⟩
  · intro tg key st p hterm heq hctx hnz
    refine ⟨_, _, processState_switch tg T key st p hterm heq hctx hnz, ?_, rfl⟩
    refine ⟨rfl, rfl, rfl, ?_, Nat.zero_le _, by simp⟩
    simp [switchRate, htype, hn0, hsub, rateOf]
  · intro tg currentTask key st p hI
    obtain ⟨hreq, hle, hcur⟩ := visited_interpolating T key currentTask st hbound hI
    obtain ⟨hall, hmax⟩ := visited_interpolating_maximal T currentTask st hbound hI
    rw [← hlen] at hmax
    by_cases hne : currentTask.taskId = st.nextTaskId
    · obtain ⟨st1, dl, hp⟩ := processState_pushes tg currentTask key st p
      refine ⟨st1, _, (visited currentTask st).length, hp, by omega, hall, hmax, ?_, ?_, ?_⟩
      · simp only [hreq]
      · simp only [hreq]
      · intro h
        exact absurd hne h
    · refine ⟨_, _, (visited currentTask st).length,
        processState_no_switch tg currentTask key st p hI.1 hne, by omega, hall, hmax,
        ?_, ?_, ?_⟩
      · simp only [hreq]
      · simp only [hreq]
      · intro _
        obtain ⟨hterm, htask, hcol, hrate, hpos, hc⟩ := hI
        split_ifs
        · exact ⟨hterm, htask, hcol, hrate, hpos, hc⟩
        · exact ⟨hterm, htask, hcol, hrate, hle, hcur⟩

/-- An instance of C7: the entry of `exTaskA` (start 0, end 10, two basic
blocks, rate 5) processed for the pulled task `exTaskB` with start 20 pushes
the request of the first basic block at time 0 and that of the second at
time `0 + 1 * 5 = 5`. -/
theorem interpolated_request_times_witness :
    Interpolating exTaskA exEntryA ∧
      processState ⟨[], []⟩ exTaskB 1 exEntryA ⟨[], 0, []⟩ =
        .ok ({ exEntryA with blocked := true },
          ⟨[⟨⟨1, false, 4, 4096, 100⟩, 0⟩, ⟨⟨1, true, 8, 8192, 101⟩, 5⟩], 2, []⟩) ∧
      ∃ st1 p1, processState ⟨[], []⟩ exTaskB 1 exEntryA ⟨[], 0, []⟩ = .ok (st1, p1) ∧
        p1.memReqQ = [⟨⟨1, false, 4, 4096, 100⟩, 0⟩, ⟨⟨1, true, 8, 8192, 101⟩, 5⟩] ∧
        p1.addedMemOps = 2 := by
  have hI : Interpolating exTaskA exEntryA :=
    ⟨rfl, rfl, rfl, by decide, by decide, by decide⟩
  obtain ⟨st1, p1, m, hp, hle, _, hmax, hq, ha, _⟩ :=
    (interpolated_request_times exTaskA rfl rfl (by decide) (by decide) (by decide)).2.2.2
      ⟨[], []⟩ exTaskB 1 exEntryA ⟨[], 0, []⟩ hI
  have hr : rateOf exTaskA = 5 := by decide
  have hcb : exEntryA.currentBB = 0 := rfl
  have hn : exTaskA.bbCount = 2 := rfl
  have hs : exTaskA.startTime = 0 := rfl
  have hS : exTaskB.startTime = 20 := rfl
  rw [hcb, hn] at hle
  rw [hcb, hn, hs, hS, hr] at hmax
  have hm : m = 2 := by
    by_contra hne
    have h2 : (20 : Nat) < 0 + (0 + m) * 5 := hmax (by omega)
    omega
  subst hm
  exact ⟨hI, by decide, st1, p1, hp, by rw [hq]; decide, by rw [ha]; decide⟩

/-- What the body of the table loop does for a live entry when the pulled
task is the awaited one and the termination test holds (lines 140-146). -/
theorem processState_terminate (tg : TaskGraph) (currentTask : Task) (key : ContextId)
    (st : ctid_current_state) (p : Pass) (hterm : st.terminated = false)
    (heq : currentTask.taskId = st.nextTaskId)
    (hcond : st.currentTask.contextId ≠ st.nextTaskId.getContextId ∨
      st.nextTaskId = TaskId.zero) :
    processState tg currentTask key st p =
      .ok ({ st with terminated := true },
        { memReqQ := p.memReqQ ++ requestsOf key (visited currentTask st)
          addedMemOps := p.addedMemOps + (requestsOf key (visited currentTask st)).length
          deleted := p.deleted ++ [st.currentTask] }) := by
  unfold processState visited
  simp only [hterm, Bool.false_eq_true, if_false, advanceLoop_eq, heq, if_true, hcond]

theorem processState_graph_irrelevant (tg tg2 : TaskGraph) (currentTask : Task)
    (key : ContextId) (st : ctid_current_state) (p : Pass) :
    processState tg2 currentTask key st p = processState tg currentTask key st p := by
  cases hterm : st.terminated
  · by_cases heq : currentTask.taskId = st.nextTaskId
    · by_cases hcond : st.currentTask.contextId ≠ st.nextTaskId.getContextId ∨
          st.nextTaskId = TaskId.zero
      · rw [processState_terminate _ _ _ _ _ hterm heq hcond,
          processState_terminate _ _ _ _ _ hterm heq hcond]
      · have hctx : st.currentTask.contextId = st.nextTaskId.getContextId := by
          by_contra h
          exact hcond (Or.inl h)
        have hnz : st.nextTaskId ≠ TaskId.zero := fun h => hcond (Or.inr h)
        rw [processState_switch _ _ _ _ _ hterm heq hctx hnz,
          processState_switch _ _ _ _ _ hterm heq hctx hnz]
    · rw [processState_no_switch _ _ _ _ _ hterm heq, processState_no_switch _ _ _ _ _ hterm heq]
  · rw [processState_terminated _ _ _ _ _ hterm, processState_terminated _ _ _ _ _ hterm]

theorem processState_eq (tg : TaskGraph) (currentTask : Task) (key : ContextId)
    (st : ctid_current_state) (p : Pass) :
    processState tg currentTask key st p =
      .ok (entryAfter currentTask st,
        { memReqQ := p.memReqQ ++ requestsOf key (visited currentTask st)
          addedMemOps := p.addedMemOps + (requestsOf key (visited currentTask st)).length
          deleted := p.deleted ++ releasedBy currentTask st }) := by
  cases hterm : st.terminated
  · by_cases heq : currentTask.taskId = st.nextTaskId
    · by_cases hcond : st.currentTask.contextId ≠ st.nextTaskId.getContextId ∨
          st.nextTaskId = TaskId.zero
      · rw [processState_terminate _ _ _ _ _ hterm heq hcond]
        simp only [entryAfter, releasedBy, hterm, Bool.false_eq_true, if_false, heq, if_true,
          hcond, and_self]
      · have hctx : st.currentTask.contextId = st.nextTaskId.getContextId := by
          by_contra h
          exact hcond (Or.inl h)
        have hnz : st.nextTaskId ≠ TaskId.zero := fun h => hcond (Or.inr h)
        rw [processState_switch _ _ _ _ _ hterm heq hctx hnz]
        simp only [entryAfter, releasedBy, hterm, Bool.false_eq_true, if_false, heq, if_true,
          hcond, and_self]
    · rw [processState_no_switch _ _ _ _ _ hterm heq]
      simp only [entryAfter, releasedBy, hterm, Bool.false_eq_true, if_false, heq, and_false,
        List.append_nil]
  · rw [processState_terminated _ _ _ _ _ hterm]
    simp [entryAfter, releasedBy, hterm, visited, requestsOf]

theorem processStates_eq (tg : TaskGraph) (currentTask : Task)
    (cs : List (ContextId × ctid_current_state)) (p : Pass) :
    processStates tg currentTask cs p =
      .ok (tableAfter currentTask cs,
        { memReqQ := p.memReqQ ++ tableRequests currentTask cs
          addedMemOps := p.addedMemOps + (tableRequests currentTask cs).length
          deleted := p.deleted ++ tableReleased currentTask cs }) := by
  induction cs generalizing p with
  | nil => simp [processStates, tableAfter, tableRequests, tableReleased]
  | cons e rest ih =>
    obtain ⟨key, st⟩ := e
    simp only [processStates, processState_eq, ih, tableAfter, List.map_cons, tableRequests,
      tableReleased, List.append_assoc, List.length_append, Nat.add_assoc]

theorem tracked_tableAfter (currentTask : Task) (cs : List (ContextId × ctid_current_state))
    (c : ContextId) : tracked (tableAfter currentTask cs) c = tracked cs c := by
  simp [tracked, tableAfter, List.any_map, Function.comp_def]

theorem processTask_eq (currentTask : Task) (s : State) (a : Nat) :
    processTask currentTask s a =
      if tracked s.contechState currentTask.contextId = true then
        .ok ({ s with contechState := tableAfter currentTask s.contechState
                      memReqQ := s.memReqQ ++ tableRequests currentTask s.contechState
                      deleted := s.deleted ++ tableReleased currentTask s.contechState },
          a + (tableRequests currentTask s.contechState).length)
      else
        match newState currentTask with
        | .error e => .error e
        | .ok st =>
          .ok ({ s with contechState :=
                          insertState currentTask.contextId st
                            (tableAfter currentTask s.contechState)
                        memReqQ := s.memReqQ ++ tableRequests currentTask s.contechState
                        deleted := s.deleted ++ tableReleased currentTask s.contechState },
            a + (tableRequests currentTask s.contechState).length) := by
  unfold processTask
  simp only [processStates_eq, tracked_tableAfter]

/-- The object state after one turn of the `while` loop, field by field. -/
theorem processTask_fields (currentTask : Task) (s : State) (a : Nat) (s1 : State) (a1 : Nat)
    (h : processTask currentTask s a = .ok (s1, a1)) :
    s1.tg = s.tg ∧ s1.lastOpTime = s.lastOpTime ∧
      s1.memReqQ = s.memReqQ ++ tableRequests currentTask s.contechState ∧
      a1 = a + (tableRequests currentTask s.contechState).length ∧
      s1.deleted = s.deleted ++ tableReleased currentTask s.contechState ∧
      ((tracked s.contechState currentTask.contextId = true ∧
          s1.contechState = tableAfter currentTask s.contechState) ∨
        (tracked s.contechState currentTask.contextId = false ∧
          ∃ st0, newState currentTask = .ok st0 ∧
            s1.contechState =
              insertState currentTask.contextId st0 (tableAfter currentTask s.contechState))) := by
  rw [processTask_eq] at h
  by_cases htr : tracked s.contechState currentTask.contextId = true
  · rw [if_pos htr] at h
    simp only [Except.ok.injEq, Prod.mk.injEq] at h
    obtain ⟨rfl, rfl⟩ := h
    exact ⟨rfl, rfl, rfl, rfl, rfl, Or.inl ⟨htr, rfl⟩⟩
  · rw [if_neg htr] at h
    cases hn : newState currentTask with
    | error e => simp [hn] at h
    | ok st0 =>
      simp only [hn, Except.ok.injEq, Prod.mk.injEq] at h
      obtain ⟨rfl, rfl⟩ := h
      exact ⟨rfl, rfl, rfl, rfl, rfl, Or.inr ⟨by simpa using htr, st0, rfl, rfl⟩⟩

theorem processTask_tg (currentTask : Task) (s : State) (a : Nat) (s1 : State) (a1 : Nat)
    (h : processTask currentTask s a = .ok (s1, a1)) : s1.tg = s.tg :=
  (processTask_step currentTask s a s1 a1 h).2.2.1

theorem reachable_populateLoop (tasks : List Task) (ts : List Task) (s : State) (a : Nat)
    (s1 : State) (a1 : Nat) (hts : s.tg.remaining = ts) (hr : Reachable tasks s)
    (h : populateLoop ts s a = .ok (s1, a1)) : Reachable tasks s1 := by
  induction ts generalizing s a with
  | nil =>
    simp only [populateLoop, Except.ok.injEq, Prod.mk.injEq] at h
    obtain ⟨rfl, rfl⟩ := h
    rw [← hts]
    exact hr
  | cons ct rest ih =>
    simp only [populateLoop] at h
    cases hp : processTask ct { s with tg := { s.tg with remaining := rest } } a with
    | error e => simp [hp] at h
    | ok v =>
      obtain ⟨s2, a2⟩ := v
      simp only [hp] at h
      have hr2 : Reachable tasks s2 := Reachable.pull s s2 ct rest a a2 hr hts hp
      by_cases hpos : a2 > 0
      · simp only [hpos, if_true, Except.ok.injEq, Prod.mk.injEq] at h
        obtain ⟨rfl, rfl⟩ := h
        exact hr2
      · simp only [hpos, if_false] at h
        have htg := processTask_tg _ _ _ _ _ hp
        exact ih s2 a2 (by rw [htg]) hr2 h

/-- A call of `populateQueue` leads from reachable states to reachable
states. -/
theorem reachable_populateQueue (tasks : List Task) (s s1 : State) (n : Nat)
    (hr : Reachable tasks s) (h : populateQueue s = .ok (s1, n)) : Reachable tasks s1 :=
  reachable_populateLoop tasks s.tg.remaining s 0 s1 n rfl hr h

/-- A call of `getNextMemoryRequest` leads from reachable states to reachable
states. -/
theorem reachable_getNextMemoryRequest (tasks : List Task) (s s1 : State) (ret : Nat)
    (out : Option MemReq) (hr : Reachable tasks s)
    (h : getNextMemoryRequest s = .ok (s1, ret, out)) : Reachable tasks s1 := by
  unfold getNextMemoryRequest at h
  by_cases hq : s.memReqQ = []
  · simp only [hq, if_true] at h
    cases hp : populateQueue s with
    | error e => simp [hp] at h
    | ok v =>
      obtain ⟨s2, n⟩ := v
      simp only [hp] at h
      have hr2 := reachable_populateQueue tasks s s2 n hr hp
      by_cases hn : n = 0
      · simp only [hn, if_true, Except.ok.injEq, Prod.mk.injEq] at h
        rw [← h.1]
        exact hr2
      · simp only [hn, if_false] at h
        exact Reachable.pop s2 s1 ret out hr2 h
  · simp only [hq, if_false] at h
    exact Reachable.pop s s1 ret out hr h

theorem popRequest_frame (s s1 : State) (ret : Nat) (out : Option MemReq)
    (h : popRequest s = .ok (s1, ret, out)) :
    s1.tg = s.tg ∧ s1.contechState = s.contechState ∧ s1.deleted = s.deleted := by
  unfold popRequest at h
  cases ht : queueTop s.memReqQ with
  | none => simp [ht] at h
  | some top =>
    simp only [ht, Except.ok.injEq, Prod.mk.injEq] at h
    rw [← h.1]
    exact ⟨rfl, rfl, rfl⟩

theorem insertState_perm (k : ContextId) (st : ctid_current_state)
    (cs : List (ContextId × ctid_current_state)) :
    (insertState k st cs).Perm ((k, st) :: cs) := by
  induction cs with
  | nil => simp [insertState]
  | cons e rest ih =>
    obtain ⟨k1, s1⟩ := e
    by_cases h : k < k1
    · simp [insertState, h]
    · simp only [insertState, h, if_false]
      exact (List.Perm.cons (k1, s1) ih).trans (List.Perm.swap _ _ _)

theorem mem_insertState (k : ContextId) (st : ctid_current_state)
    (cs : List (ContextId × ctid_current_state)) (e : ContextId × ctid_current_state) :
    e ∈ insertState k st cs ↔ e = (k, st) ∨ e ∈ cs := by
  rw [(insertState_perm k st cs).mem_iff, List.mem_cons]

theorem reachable_remaining (tasks : List Task) (s : State) (hr : Reachable tasks s) :
    ∃ pulled, tasks = pulled ++ s.tg.remaining := by
  induction hr with
  | init => exact ⟨[], rfl⟩
  | pull s s1 ct rest a a1 _ hrem hp ih =>
    obtain ⟨pulled, hpulled⟩ := ih
    have htg := processTask_tg _ _ _ _ _ hp
    refine ⟨pulled ++ [ct], ?_⟩
    rw [htg, hpulled, hrem]
    simp
  | pop s s1 ret out _ hp ih =>
    obtain ⟨pulled, hpulled⟩ := ih
    exact ⟨pulled, by rw [(popRequest_frame _ _ _ _ hp).1]; exact hpulled⟩

/-- A property of table entries that holds for every newly created entry and
is kept by the body of the table loop holds for all entries of all reachable
states. -/
theorem reachable_entries (tasks : List Task) (J : ctid_current_state → Prop)
    (hnew : ∀ ct ∈ tasks, ∀ st, newState ct = .ok st → J st)
    (hstep : ∀ ct ∈ tasks, ∀ st, J st → J (entryAfter ct st))
    (s : State) (hr : Reachable tasks s) : ∀ e ∈ s.contechState, J e.2 := by
  induction hr with
  | init => intro e he; simp [State.init] at he
  | pull s s1 ct rest a a1 hreach hrem hp ih =>
    obtain ⟨pulled, hpulled⟩ := reachable_remaining tasks s hreach
    have hct : ct ∈ tasks := by
      rw [hpulled, hrem]
      simp
    have hafter : ∀ e ∈ tableAfter ct s.contechState, J e.2 := by
      intro e he
      simp only [tableAfter, List.mem_map] at he
      obtain ⟨e0, he0, rfl⟩ := he
      exact hstep ct hct _ (ih e0 he0)
    obtain ⟨_, _, _, _, _, htab⟩ := processTask_fields _ _ _ _ _ hp
    rcases htab with ⟨_, htab⟩ | ⟨_, st0, hn, htab⟩
    · rw [htab]
      exact hafter
    · rw [htab]
      intro e he
      rcases (mem_insertState _ _ _ _).mp he with rfl | he
      · exact hnew ct hct st0 hn
      · exact hafter e he
  | pop s s1 ret out _ hp ih =>
    rw [(popRequest_frame _ _ _ _ hp).2.1]
    exact ih

theorem getSequenceTaskLoop_mem (selfId : ContextId) (l : List TaskId) (acc : TaskId) :
    getSequenceTaskLoop selfId l acc = acc ∨
      (getSequenceTaskLoop selfId l acc ∈ l ∧
        (getSequenceTaskLoop selfId l acc).getContextId = selfId) := by
  induction l generalizing acc with
  | nil => exact Or.inl rfl
  | cons i rest ih =>
    simp only [getSequenceTaskLoop]
    split_ifs with hm hc
    · rcases ih i with h | ⟨h, hctx⟩
      · rw [h]
        exact Or.inr ⟨List.mem_cons_self _ _, hm⟩
      · exact Or.inr ⟨List.mem_cons_of_mem _ h, hctx⟩
    · rcases ih acc with h | ⟨h, hctx⟩
      · exact Or.inl h
      · exact Or.inr ⟨List.mem_cons_of_mem _ h, hctx⟩
    · rcases ih acc with h | ⟨h, hctx⟩
      · exact Or.inl h
      · exact Or.inr ⟨List.mem_cons_of_mem _ h, hctx⟩

theorem newState_fields (ct : Task) (st : ctid_current_state) (h : newState ct = .ok st) :
    st.terminated = false ∧ st.currentTask = ct ∧
      st.nextTaskId = getSequenceTask ct.successorTasks ct.contextId ∧
      st.taskCurrTime = ct.startTime ∧ st.currentBBCol = ct.basicBlockActions ∧
      st.currentBB = 0 ∧
      st.blocked = !decide (ct.type = task_type.task_type_basic_blocks) ∧
      st.taskRate =
        (if ct.type = task_type.task_type_basic_blocks then
          tsSub ct.endTime ct.startTime / ct.bbCount else 0) ∧
      (ct.type = task_type.task_type_basic_blocks → ct.bbCount ≠ 0) := by
  unfold newState at h
  by_cases hty : ct.type = task_type.task_type_basic_blocks
  · by_cases hn : ct.bbCount = 0
    · simp [hty, hn] at h
    · simp only [hty, if_true, hn, if_false, Except.ok.injEq] at h
      subst h
      simp [hty, hn]
  · simp only [hty, if_false, Except.ok.injEq] at h
    subst h
    simp [hty]

theorem nextIsSuccessor_new (ct : Task) (st : ctid_current_state)
    (h : newState ct = .ok st) : NextIsSuccessor st := by
  obtain ⟨_, hcur, hnext, _⟩ := newState_fields ct st h
  unfold NextIsSuccessor
  rw [hnext, hcur]
  exact getSequenceTaskLoop_mem _ _ _

theorem nextIsSuccessor_step (ct : Task) (st : ctid_current_state)
    (h : NextIsSuccessor st) : NextIsSuccessor (entryAfter ct st) := by
  unfold entryAfter
  split_ifs
  · exact h
  · exact h
  · exact getSequenceTaskLoop_mem _ _ _
  · exact h
  · exact h

/-- C19: in every reachable state the awaited task `nextTaskId` of every table
entry is the sentinel 0 or the identifier of a successor of the entry's
current task whose context id is that of the current task; hence the test
"context id of the current task differs from the context id of `nextTaskId`"
can hold only when `nextTaskId` is the sentinel 0. -/
theorem nextTaskId_is_successor (tasks : List Task) (s : State) (hr : Reachable tasks s) :
    ∀ e ∈ s.contechState,
      (e.2.nextTaskId = TaskId.zero ∨
          (e.2.nextTaskId ∈ e.2.currentTask.successorTasks ∧
            e.2.nextTaskId.getContextId = e.2.currentTask.contextId)) ∧
        (e.2.currentTask.contextId ≠ e.2.nextTaskId.getContextId →
          e.2.nextTaskId = TaskId.zero) := by
  intro e he
  have h : NextIsSuccessor e.2 :=
    reachable_entries tasks NextIsSuccessor (fun ct _ st hn => nextIsSuccessor_new ct st hn)
      (fun ct _ st hst => nextIsSuccessor_step ct st hst) s hr e he
  refine ⟨h, fun hne => ?_⟩
  rcases h with h | ⟨_, h⟩
  · exact h
  · exact absurd h.symm hne

theorem exStateAdopted_reachable : Reachable [exTaskPrev, exTaskEmpty] exStateAdopted :=
  Reachable.pull (State.init [exTaskPrev, exTaskEmpty]) exStateAdopted exTaskPrev
    [exTaskEmpty] 0 0 Reachable.init rfl (by decide)

/-- An instance of C19: after `exTaskPrev` has been adopted for context 1 the
awaited task `1:2` is a successor of `exTaskPrev` in context 1. -/
theorem nextTaskId_is_successor_witness :
    (1, exEntryPrev) ∈ exStateAdopted.contechState ∧
      (exEntryPrev.nextTaskId = TaskId.zero ∨
          (exEntryPrev.nextTaskId ∈ exEntryPrev.currentTask.successorTasks ∧
            exEntryPrev.nextTaskId.getContextId = exEntryPrev.currentTask.contextId)) ∧
        (exEntryPrev.currentTask.contextId ≠ exEntryPrev.nextTaskId.getContextId →
          exEntryPrev.nextTaskId = TaskId.zero) :=
  ⟨by decide,
    nextTaskId_is_successor [exTaskPrev, exTaskEmpty] exStateAdopted exStateAdopted_reachable
      (1, exEntryPrev) (by decide)⟩

theorem populateLoop_error (ts : List Task) (s : State) (a : Nat) (e : Fault)
    (h : populateLoop ts s a = .error e) : e = Fault.divisionByZero := by
  induction ts generalizing s a with
  | nil => simp [populateLoop] at h
  | cons ct rest ih =>
    simp only [populateLoop] at h
    cases hp : processTask ct { s with tg := { s.tg with remaining := rest } } a with
    | error e1 =>
      simp only [hp, Except.error.injEq] at h
      subst h
      rw [processTask_eq] at hp
      split_ifs at hp
      unfold newState at hp
      split_ifs at hp
      simp only [Except.error.injEq] at hp
      exact hp.symm
    | ok v =>
      obtain ⟨s2, a2⟩ := v
      simp only [hp] at h
      split_ifs at h
      exact ih _ _ h

/-- C20: the body of the table loop gives the same result whatever the graph
answers to a lookup by identifier, so the branch that calls `getTaskById` is
never taken; it always returns, and the current task of the entry it leaves is
the old current task or the pulled task itself; a call of `populateQueue` can
fail to return only through the division of the new-context adoption, never
through the assertion. -/
theorem lookup_branch_never_taken (tg : TaskGraph) (currentTask : Task) (key : ContextId)
    (st : ctid_current_state) (p : Pass) :
    (∀ tg2, processState tg2 currentTask key st p = processState tg currentTask key st p) ∧
      (∃ st1 p1, processState tg currentTask key st p = .ok (st1, p1) ∧
        (st1.currentTask = st.currentTask ∨ st1.currentTask = currentTask)) ∧
      (∀ s e, populateQueue s = .error e → e = Fault.divisionByZero) := by
  refine ⟨fun tg2 => processState_graph_irrelevant tg tg2 currentTask key st p,
    ⟨_, _, processState_eq tg currentTask key st p, ?_⟩,
    fun s e h => populateLoop_error _ _ _ _ h⟩
  unfold entryAfter
  split_ifs
  · exact Or.inl rfl
  · exact Or.inl rfl
  · exact Or.inr rfl
  · exact Or.inl rfl
  · exact Or.inl rfl

theorem findState_tableAfter (currentTask : Task) (cs : List (ContextId × ctid_current_state))
    (c : ContextId) :
    findState (tableAfter currentTask cs) c = (findState cs c).map (entryAfter currentTask) := by
  induction cs with
  | nil => rfl
  | cons e rest ih =>
    obtain ⟨k, st⟩ := e
    by_cases hk : k = c
    · simp [tableAfter, findState, hk]
    · simp only [tableAfter, List.map_cons, findState, hk, if_false] at ih ⊢
      exact ih

/-- The entry of a tracked context after one turn of the `while` loop. -/
theorem processTask_findState (currentTask : Task) (s : State) (a : Nat) (s1 : State)
    (a1 : Nat) (c : ContextId) (st : ctid_current_state)
    (h : processTask currentTask s a = .ok (s1, a1))
    (hc : findState s.contechState c = some st) :
    findState s1.contechState c = some (entryAfter currentTask st) := by
  obtain ⟨_, _, _, _, _, htab⟩ := processTask_fields _ _ _ _ _ h
  have hafter : findState (tableAfter currentTask s.contechState) c =
      some (entryAfter currentTask st) := by
    rw [findState_tableAfter, hc]
    rfl
  rcases htab with ⟨_, htab⟩ | ⟨htr, st0, _, htab⟩
  · rw [htab]
    exact hafter
  · rw [htab, findState_insertState_ne]
    · exact hafter
    · intro heq
      have hmem := findState_mem_keys _ _ _ hc
      rw [← tracked_iff, ← heq, htr] at hmem
      exact Bool.false_ne_true hmem

/-- C15: let a tracked, non-terminated entry `st` be processed for a pulled
task.  If the identifier of the pulled task is the entry's `nextTaskId` and
this is the sentinel 0 or has a context id other than that of the current
task, the entry ends the step terminated and keeps its current task; if the
identifier is `nextTaskId` and neither holds, the pulled task becomes the
current task and the entry stays live; if the identifier differs from
`nextTaskId`, neither the current task nor `terminated` changes. -/
theorem transition_outcomes (currentTask : Task) (s : State) (a : Nat) (s1 : State) (a1 : Nat)
    (c : ContextId) (st : ctid_current_state)
    (hc : findState s.contechState c = some st) (hterm : st.terminated = false)
    (h : processTask currentTask s a = .ok (s1, a1)) :
    ∃ st1, findState s1.contechState c = some st1 ∧
      (currentTask.taskId = st.nextTaskId →
        (st.nextTaskId = TaskId.zero ∨
          st.nextTaskId.getContextId ≠ st.currentTask.contextId) →
        st1.terminated = true ∧ st1.currentTask = st.currentTask) ∧
      (currentTask.taskId = st.nextTaskId →
        ¬ (st.nextTaskId = TaskId.zero ∨
          st.nextTaskId.getContextId ≠ st.currentTask.contextId) →
        st1.currentTask = currentTask ∧ st1.terminated = false) ∧
      (currentTask.taskId ≠ st.nextTaskId →
        st1.currentTask = st.currentTask ∧ st1.terminated = false) := by
  refine ⟨_, processTask_findState _ _ _ _ _ _ _ h hc, ?_, ?_, ?_⟩
  · intro heq hcond
    have hcond2 : st.currentTask.contextId ≠ st.nextTaskId.getContextId ∨
        st.nextTaskId = TaskId.zero := by
      rcases hcond with h0 | hne
      · exact Or.inr h0
      · exact Or.inl (fun h => hne h.symm)
    simp [entryAfter, hterm, heq, hcond2]
  · intro heq hcond
    have hcond2 : ¬ (st.currentTask.contextId ≠ st.nextTaskId.getContextId ∨
        st.nextTaskId = TaskId.zero) := by
      rintro (hne | h0)
      · exact hcond (Or.inr (fun h => hne h.symm))
      · exact hcond (Or.inl h0)
    simp [entryAfter, hterm, heq, hcond2]
  · intro hne
    simp only [entryAfter, hterm, Bool.false_eq_true, if_false, hne]
    split_ifs <;> exact ⟨rfl, rfl⟩

/-- An instance of C15: the entry of context 1 awaits the task `1:2`; when
that task is pulled it becomes the current task and the entry stays live. -/
theorem transition_outcomes_witness :
    findState exStateAdopted.contechState 1 = some exEntryPrev ∧
      exTaskEmpty.taskId = exEntryPrev.nextTaskId ∧
      ∃ st1, findState (afterStep exTaskEmpty exStateAdopted).contechState 1 = some st1 ∧
        st1.currentTask = exTaskEmpty ∧ st1.terminated = false := by
  obtain ⟨st1, h1, _, h2, _⟩ :=
    transition_outcomes exTaskEmpty exStateAdopted 0 (afterStep exTaskEmpty exStateAdopted) 1 1
      exEntryPrev (by decide) rfl (by decide)
  exact ⟨by decide, by decide, st1, h1, h2 (by decide) (by decide)⟩

/-- An instance of C20: with a graph in which a lookup by identifier finds
nothing, the switch of context 1 to the pulled task `exTaskEmpty` still
returns, and the new current task is the pulled task. -/
theorem lookup_branch_never_taken_witness :
    (⟨[], []⟩ : TaskGraph).getTaskById exEntryPrev.nextTaskId = none ∧
      ∃ st1 p1, processState ⟨[], []⟩ exTaskEmpty 1 exEntryPrev ⟨[], 0, []⟩ = .ok (st1, p1) ∧
        (st1.currentTask = exEntryPrev.currentTask ∨ st1.currentTask = exTaskEmpty) :=
  ⟨by decide,
    (lookup_branch_never_taken ⟨[], []⟩ exTaskEmpty 1 exEntryPrev ⟨[], 0, []⟩).2.1⟩

theorem populateLoop_remaining (ts : List Task) (s : State) (a : Nat) (r : List Task) :
    populateLoop ts { s with tg := { s.tg with remaining := r } } a = populateLoop ts s a := by
  cases ts <;> rfl

theorem processTask_remaining (currentTask : Task) (s : State) (a : Nat) (r r2 : List Task)
    (x : State) (b : Nat)
    (h : processTask currentTask { s with tg := { s.tg with remaining := r } } a = .ok (x, b)) :
    processTask currentTask { s with tg := { s.tg with remaining := r2 } } a =
      .ok ({ x with tg := { x.tg with remaining := r2 } }, b) := by
  rw [processTask_eq] at h ⊢
  by_cases htr : tracked s.contechState currentTask.contextId = true
  · simp only [htr, if_true, Except.ok.injEq, Prod.mk.injEq] at h ⊢
    obtain ⟨rfl, rfl⟩ := h
    exact ⟨rfl, rfl⟩
  · rw [if_neg htr] at h ⊢
    cases hn : newState currentTask with
    | error e => simp [hn] at h
    | ok st0 =>
      simp only [hn, Except.ok.injEq, Prod.mk.injEq] at h ⊢
      obtain ⟨rfl, rfl⟩ := h
      exact ⟨rfl, rfl⟩

theorem populateLoop_shape (ts : List Task) (s s1 : State) (n : Nat)
    (h : populateLoop ts s 0 = .ok (s1, n)) :
    (n = 0 → s1.tg.remaining = [] ∧ s1.memReqQ = s.memReqQ) ∧
      (0 < n → ∃ pre ct rest s0, ts = pre ++ ct :: rest ∧ s1.tg.remaining = rest ∧
        populateLoop pre s 0 = .ok (s0, 0) ∧ s0.memReqQ = s.memReqQ ∧
        processTask ct { s0 with tg := { s0.tg with remaining := rest } } 0 = .ok (s1, n)) := by
  induction ts generalizing s with
  | nil =>
    simp only [populateLoop, Except.ok.injEq, Prod.mk.injEq] at h
    obtain ⟨rfl, rfl⟩ := h
    exact ⟨fun _ => ⟨rfl, rfl⟩, fun hn => absurd hn (by decide)⟩
  | cons ct rest ih =>
    simp only [populateLoop] at h
    cases hp : processTask ct { s with tg := { s.tg with remaining := rest } } 0 with
    | error e => simp [hp] at h
    | ok v =>
      obtain ⟨s2, a2⟩ := v
      simp only [hp] at h
      obtain ⟨htg, _, hq, ha, _⟩ := processTask_fields _ _ _ _ _ hp
      by_cases hpos : a2 > 0
      · simp only [hpos, if_true, Except.ok.injEq, Prod.mk.injEq] at h
        obtain ⟨rfl, rfl⟩ := h
        refine ⟨fun h0 => absurd hpos (by omega), fun _ => ?_⟩
        exact ⟨[], ct, rest, { s with tg := { s.tg with remaining := [] } }, rfl,
          by rw [htg], rfl, rfl, hp⟩
      · simp only [hpos, if_false] at h
        have ha2 : a2 = 0 := by omega
        subst ha2
        have hq2 : s2.memReqQ = s.memReqQ := by
          have hlen : (tableRequests ct s.contechState).length = 0 := by
            simpa using ha.symm
          rw [hq, List.length_eq_zero.mp hlen]
          simp
        obtain ⟨ih0, ihpos⟩ := ih s2 h
        refine ⟨fun h0 => ?_, fun hn => ?_⟩
        · obtain ⟨h1, h2⟩ := ih0 h0
          exact ⟨h1, by rw [h2, hq2]⟩
        · obtain ⟨pre, ct2, rest2, s0, hsplit, hrem, hpre, hq0, hstep⟩ := ihpos hn
          refine ⟨ct :: pre, ct2, rest2, s0, by rw [hsplit]; rfl, hrem, ?_, by rw [hq0, hq2],
            hstep⟩
          simp only [populateLoop]
          rw [processTask_remaining ct s 0 rest pre s2 0 hp]
          simp only [gt_iff_lt, Nat.lt_irrefl, if_false]
          rw [populateLoop_remaining]
          exact hpre

/-- C11: when `populateQueue` returns `n`, the queue has grown by exactly `n`
requests, all pushed in this call.  If `n = 0` the task source is exhausted
and nothing was pushed.  If `n > 0` the remaining tasks on entry split into
tasks `pre`, a task `ct` and tasks `rest` such that processing `pre` alone
pushes nothing (`populateQueue` on `pre` returns 0 with the queue unchanged),
the single step for `ct` pushes the `n` requests, and `rest` is what the
source still holds on return: no task after `ct` is pulled. -/
theorem populateQueue_returns_pushed (s s1 : State) (n : Nat)
    (h : populateQueue s = .ok (s1, n)) :
    (∃ pushed, s1.memReqQ = s.memReqQ ++ pushed ∧ pushed.length = n) ∧
      (n = 0 → s1.tg.remaining = [] ∧ s1.memReqQ = s.memReqQ) ∧
      (0 < n → ∃ pre ct rest s0, s.tg.remaining = pre ++ ct :: rest ∧
        s1.tg.remaining = rest ∧
        populateQueue { s with tg := { s.tg with remaining := pre } } = .ok (s0, 0) ∧
        s0.memReqQ = s.memReqQ ∧
        processTask ct { s0 with tg := { s0.tg with remaining := rest } } 0 = .ok (s1, n) ∧
        s1.memReqQ.length = s0.memReqQ.length + n) := by
  obtain ⟨h0, hpos⟩ := populateLoop_shape s.tg.remaining s s1 n h
  have hcount := populateQueue_count s s1 n h
  refine ⟨?_, h0, fun hn => ?_⟩
  · by_cases hn : n = 0
    · exact ⟨[], by rw [(h0 hn).2]; simp, by simp [hn]⟩
    · obtain ⟨pre, ct, rest, s0, _, _, _, hq0, hstep⟩ := hpos (by omega)
      obtain ⟨_, _, hq, ha, _⟩ := processTask_fields _ _ _ _ _ hstep
      dsimp only at hq ha
      rw [hq0] at hq
      exact ⟨_, hq, by omega⟩
  · obtain ⟨pre, ct, rest, s0, hsplit, hrem, hpre, hq0, hstep⟩ := hpos hn
    refine ⟨pre, ct, rest, s0, hsplit, hrem, ?_, hq0, hstep, by rw [hq0]; exact hcount⟩
    unfold populateQueue
    simp only
    rw [populateLoop_remaining]
    exact hpre

/-- An instance of C11: on the graph `exTaskA, exTaskB, exTaskC` the first
call returns 2, pushes two requests and leaves `exTaskC` in the source. -/
theorem populateQueue_returns_pushed_witness :
    populateQueue (State.init [exTaskA, exTaskB, exTaskC]) =
        .ok (afterPopulate (State.init [exTaskA, exTaskB, exTaskC]), 2) ∧
      (afterPopulate (State.init [exTaskA, exTaskB, exTaskC])).tg.remaining = [exTaskC] ∧
      ∃ pushed,
        (afterPopulate (State.init [exTaskA, exTaskB, exTaskC])).memReqQ =
          (State.init [exTaskA, exTaskB, exTaskC]).memReqQ ++ pushed ∧ pushed.length = 2 :=
  ⟨by decide, by decide,
    (populateQueue_returns_pushed (State.init [exTaskA, exTaskB, exTaskC])
      (afterPopulate (State.init [exTaskA, exTaskB, exTaskC])) 2 (by decide)).1⟩

/-- C14 (the code departs from the claim): the entry of `exTaskA` (cursor 0,
rate 5) is processed for the pulled task `exTaskB`, which starts at time 20
and is not the awaited task.  Both basic blocks are visited, yet the entry
ends the step flagged blocked with block position 0 and cursor 0 instead of
position 2 and cursor 10, and the step for the next pulled task `exTaskC`
pushes the same two requests again. -/
theorem lagging_step_keeps_position :
    findState (afterStep exTaskA (State.init [])).contechState 1 = some exEntryA ∧
      exTaskB.taskId ≠ exEntryA.nextTaskId ∧
      (visited exTaskB exEntryA).length = 2 ∧
      findState (afterStep exTaskB (afterStep exTaskA (State.init []))).contechState 1 =
        some { exEntryA with blocked := true } ∧
      (afterStep exTaskB (afterStep exTaskA (State.init []))).memReqQ =
        [⟨⟨1, false, 4, 4096, 100⟩, 0⟩, ⟨⟨1, true, 8, 8192, 101⟩, 5⟩] ∧
      (afterStep exTaskC (afterStep exTaskB (afterStep exTaskA (State.init [])))).memReqQ =
        [⟨⟨1, false, 4, 4096, 100⟩, 0⟩, ⟨⟨1, true, 8, 8192, 101⟩, 5⟩,
          ⟨⟨1, false, 4, 4096, 100⟩, 0⟩, ⟨⟨1, true, 8, 8192, 101⟩, 5⟩] := by
  decide

/-- C12 (the code departs from the claim): the task `exTaskEmpty`, an executing
task with block count 0, adopted through a task switch leaves a live entry
with cursor 10, position 0 and rate `(20 - 10) / 1 = 10`; adopted as the first
task of a new context the same task makes the rate computation divide by
zero, so no entry is derived at all. -/
theorem switch_differs_from_adoption :
    processState ⟨[], []⟩ exTaskEmpty 1 exEntryPrev ⟨[], 0, []⟩ =
        .ok ({ terminated := false, blocked := false, currentTask := exTaskEmpty,
               nextTaskId := TaskId.zero, taskCurrTime := 10, taskRate := 10,
               currentBBCol := [], currentBB := 0 },
          ⟨[⟨⟨1, false, 4, 4096, 100⟩, 0⟩], 1, [exTaskPrev]⟩) ∧
      newState exTaskEmpty = .error Fault.divisionByZero := by
  decide

/-- For a task whose adoption as the first task of a context returns, the
adoption through a task switch derives the same entry. -/
theorem switch_matches_adoption (T : Task) (st st0 : ctid_current_state)
    (hterm : st.terminated = false) (heq : T.taskId = st.nextTaskId)
    (hctx : st.currentTask.contextId = st.nextTaskId.getContextId)
    (hnz : st.nextTaskId ≠ TaskId.zero) (hnew : newState T = .ok st0) :
    entryAfter T st = st0 := by
  have hcond : ¬ (st.currentTask.contextId ≠ st.nextTaskId.getContextId ∨
      st.nextTaskId = TaskId.zero) := by
    rintro (h | h)
    · exact h hctx
    · exact hnz h
  unfold newState at hnew
  by_cases hty : T.type = task_type.task_type_basic_blocks
  · by_cases hn : T.bbCount = 0
    · simp [hty, hn] at hnew
    · simp only [hty, if_true, hn, if_false, Except.ok.injEq] at hnew
      subst hnew
      simp [entryAfter, hterm, heq, hcond, hty, switchRate, hn]
  · simp only [hty, if_false, Except.ok.injEq] at hnew
    subst hnew
    simp [entryAfter, hterm, heq, hcond, hty, switchRate]

theorem TaskId.le_antisymm (a b : TaskId) (hab : TaskId.le a b = true)
    (hba : TaskId.le b a = true) : a = b := by
  obtain ⟨a1, a2⟩ := a
  obtain ⟨b1, b2⟩ := b
  simp only [TaskId.le, TaskId.lt, Bool.not_eq_true', Bool.or_eq_false_iff,
    Bool.and_eq_false_imp, decide_eq_false_iff_not, decide_eq_true_eq, ContextId] at *
  have h1 : a1 = b1 := Nat.le_antisymm (Nat.le_of_not_lt hab.1) (Nat.le_of_not_lt hba.1)
  subst h1
  have h2 : a2 = b2 :=
    Nat.le_antisymm (Nat.le_of_not_lt (hab.2 rfl)) (Nat.le_of_not_lt (hba.2 rfl))
  rw [h2]

/-- C17 (the claim as stated fails): the successor lists `0:0, 0:5` and
`0:5, 0:0` are permutations of one another, and `0:5, 0:0` and
`0:5, 0:0, 0:5` differ by a duplicated entry only, but for the owner context 0
`getSequenceTask` returns `0:5` for the first and the third and `0:0` for the
second. -/
theorem getSequenceTask_depends_on_order :
    List.Perm [(⟨0, 0⟩ : TaskId), ⟨0, 5⟩] [⟨0, 5⟩, ⟨0, 0⟩] ∧
      (∀ x : TaskId, x ∈ [(⟨0, 5⟩ : TaskId), ⟨0, 0⟩] ↔ x ∈ [(⟨0, 5⟩ : TaskId), ⟨0, 0⟩, ⟨0, 5⟩]) ∧
      getSequenceTask [⟨0, 0⟩, ⟨0, 5⟩] 0 = ⟨0, 5⟩ ∧
      getSequenceTask [⟨0, 5⟩, ⟨0, 0⟩] 0 = ⟨0, 0⟩ ∧
      getSequenceTask [⟨0, 5⟩, ⟨0, 0⟩, ⟨0, 5⟩] 0 = ⟨0, 5⟩ ∧
      getSequenceTask [⟨0, 0⟩, ⟨0, 5⟩] 0 ≠ getSequenceTask [⟨0, 5⟩, ⟨0, 0⟩] 0 ∧
      getSequenceTask [⟨0, 5⟩, ⟨0, 0⟩] 0 ≠ getSequenceTask [⟨0, 5⟩, ⟨0, 0⟩, ⟨0, 5⟩] 0 := by
  refine ⟨List.Perm.swap _ _ _, ?_, by decide, by decide, by decide, by decide, by decide⟩
  intro x
  simp only [List.mem_cons, List.mem_singleton, List.not_mem_nil, or_false]
  tauto

/-- C17 (amended): for every owner context and every two successor lists with
the same set of entries (permutations of one another, or differing by
duplicated entries) in which no entry of the owner's context is the
identifier 0, `getSequenceTask` returns the same identifier. -/
theorem getSequenceTask_set_only (l1 l2 : List TaskId) (selfId : ContextId)
    (h0 : ∀ i ∈ l1, i.getContextId = selfId → i ≠ TaskId.zero)
    (hset : ∀ x, x ∈ l1 ↔ x ∈ l2) :
    getSequenceTask l1 selfId = getSequenceTask l2 selfId := by
  have h0' : ∀ i ∈ l2, i.getContextId = selfId → i ≠ TaskId.zero :=
    fun i hi => h0 i ((hset i).mpr hi)
  obtain ⟨a1, _, a3, a4⟩ := getSequenceTaskLoop_spec selfId l1 TaskId.zero h0
  obtain ⟨b1, _, b3, b4⟩ := getSequenceTaskLoop_spec selfId l2 TaskId.zero h0'
  unfold getSequenceTask
  by_cases hex : ∃ i ∈ l1, i.getContextId = selfId
  · have hex' : ∃ i ∈ l2, i.getContextId = selfId := by
      obtain ⟨i, hi, hc⟩ := hex
      exact ⟨i, (hset i).mp hi, hc⟩
    obtain ⟨m1, c1⟩ := a4 rfl hex
    obtain ⟨m2, c2⟩ := b4 rfl hex'
    exact TaskId.le_antisymm _ _ (a3 _ ((hset _).mpr m2) c2) (b3 _ ((hset _).mp m1) c1)
  · have hno1 : ¬ (getSequenceTaskLoop selfId l1 TaskId.zero ∈ l1 ∧
        (getSequenceTaskLoop selfId l1 TaskId.zero).getContextId = selfId) :=
      fun h => hex ⟨_, h.1, h.2⟩
    have hno2 : ¬ (getSequenceTaskLoop selfId l2 TaskId.zero ∈ l2 ∧
        (getSequenceTaskLoop selfId l2 TaskId.zero).getContextId = selfId) :=
      fun h => hex ⟨_, (hset _).mpr h.1, h.2⟩
    rw [a1.resolve_right hno1, b1.resolve_right hno2]

/-- An instance of the amended C17: the successors `1:7, 1:3, 2:9` in another
order and with a duplicated entry give the same result for the owner 1. -/
theorem getSequenceTask_set_only_witness :
    getSequenceTask [⟨1, 7⟩, ⟨1, 3⟩, ⟨2, 9⟩] 1 =
      getSequenceTask [⟨2, 9⟩, ⟨1, 3⟩, ⟨1, 7⟩, ⟨1, 3⟩] 1 :=
  getSequenceTask_set_only [⟨1, 7⟩, ⟨1, 3⟩, ⟨2, 9⟩] [⟨2, 9⟩, ⟨1, 3⟩, ⟨1, 7⟩, ⟨1, 3⟩] 1
    (by decide) (by
      intro x
      simp only [List.mem_cons, List.mem_singleton, List.not_mem_nil, or_false]
      tauto)

theorem emittedBlocks_length_le (start rate : ct_timestamp) (bbs : List BasicBlockAction)
    (cur : ct_timestamp) : (emittedBlocks start rate bbs cur).length ≤ bbs.length := by
  induction bbs generalizing cur with
  | nil => simp [emittedBlocks]
  | cons bb rest ih =>
    by_cases h : cur ≤ start
    · simp only [emittedBlocks, h, if_true, List.length_cons]
      exact Nat.succ_le_succ (ih _)
    · simp [emittedBlocks, h]

theorem cursorAfter_eq (rate : ct_timestamp) (m : Nat) (cur : ct_timestamp)
    (h : cur + m * rate < tsMod) : cursorAfter rate m cur = cur + m * rate := by
  induction m generalizing cur with
  | zero => simp [cursorAfter]
  | succ m ih =>
    have hstep : cur + (m + 1) * rate = cur + rate + m * rate := by
      rw [Nat.add_mul, Nat.one_mul]
      simp only [ct_timestamp] at *
      omega
    have hadd : tsAdd cur rate = cur + rate := by
      apply tsAdd_eq
      have : cur + rate ≤ cur + rate + m * rate := Nat.le_add_right _ _
      rw [hstep] at h
      exact Nat.lt_of_le_of_lt this h
    rw [cursorAfter, hadd, ih _ (by rw [← hstep]; exact h), hstep]

theorem visited_length_le (currentTask : Task) (st : ctid_current_state) :
    (visited currentTask st).length ≤ st.currentBBCol.length - st.currentBB := by
  unfold visited
  split_ifs
  · simp
  · have := emittedBlocks_length_le currentTask.startTime st.taskRate
      (st.currentBBCol.drop st.currentBB) st.taskCurrTime
    simpa using this

theorem div_mul_bound (x n len : Nat) (hlen : n = len) : len * (x / n) ≤ x := by
  subst hlen
  rw [Nat.mul_comm]
  exact Nat.div_mul_le_self x n

theorem tracking_new (tasks : List Task) (hw : WellTimed tasks) (ct : Task) (hct : ct ∈ tasks)
    (st : ctid_current_state) (h : newState ct = .ok st) : Tracking tasks st := by
  obtain ⟨hse, he, hlen⟩ := hw.1 ct hct
  have hnext := nextIsSuccessor_new ct st h
  obtain ⟨_, hcur, _, htime, hcol, hbb, _, hrate, hn⟩ := newState_fields ct st h
  refine ⟨by rw [hcur]; exact hct, hnext, by rw [hcol, hcur], by rw [hbb]; exact Nat.zero_le _,
    by rw [htime, hbb, hcur]; simp, ?_⟩
  rw [hrate, hcol, hcur]
  by_cases hty : ct.type = task_type.task_type_basic_blocks
  · simp only [hty, if_true, tsSub_eq _ _ hse he]
    exact div_mul_bound _ _ _ hlen
  · simp [hty]

theorem tracking_step (tasks : List Task) (hw : WellTimed tasks) (ct : Task) (hct : ct ∈ tasks)
    (st : ctid_current_state) (h : Tracking tasks st) :
    Tracking tasks (entryAfter ct st) ∧ st.taskCurrTime ≤ (entryAfter ct st).taskCurrTime := by
  obtain ⟨hmem, hnext, hcol, hpos, hcur, hbound⟩ := h
  obtain ⟨hse, he, _⟩ := hw.1 _ hmem
  have hend : st.currentTask.startTime + st.currentBBCol.length * st.taskRate ≤
      st.currentTask.endTime := by
    simp only [ct_timestamp] at *
    omega
  unfold entryAfter
  split_ifs with hterm heq hcond hlag
  · exact ⟨⟨hmem, hnext, hcol, hpos, hcur, hbound⟩, Nat.le_refl _⟩
  · exact ⟨⟨hmem, hnext, hcol, hpos, hcur, hbound⟩, Nat.le_refl _⟩
  · obtain ⟨hse2, he2, hlen2⟩ := hw.1 ct hct
    have hnz : st.nextTaskId ≠ TaskId.zero := fun h0 => hcond (Or.inr h0)
    have hsucc : ct.taskId ∈ st.currentTask.successorTasks ∧
        ct.taskId.getContextId = st.currentTask.contextId := by
      rcases hnext with h0 | h1
      · exact absurd h0 hnz
      · rw [heq]
        exact h1
    have hmono := hw.2 _ hmem ct hct hsucc.1 hsucc.2
    refine ⟨⟨hct, getSequenceTaskLoop_mem _ _ _, rfl, Nat.zero_le _, by simp, ?_⟩, ?_⟩
    · simp only [switchRate]
      by_cases hty : ct.type = task_type.task_type_basic_blocks
      · simp only [hty, decide_True, Bool.not_true, Bool.false_eq_true, if_false,
          tsSub_eq _ _ hse2 he2]
        by_cases hn : ct.bbCount = 0
        · have : ct.basicBlockActions.length = 0 := by rw [← hlen2, hn]
          simp [this]
        · simp only [hn, if_false]
          exact div_mul_bound _ _ _ hlen2
      · simp [hty]
    · show st.taskCurrTime ≤ ct.startTime
      have hk : st.currentBB * st.taskRate ≤ st.currentBBCol.length * st.taskRate :=
        Nat.mul_le_mul_right _ hpos
      simp only [ct_timestamp] at *
      omega
  · exact ⟨⟨hmem, hnext, hcol, hpos, hcur, hbound⟩, Nat.le_refl _⟩
  · have hm := visited_length_le ct st
    have hle : st.currentBB + (visited ct st).length ≤ st.currentBBCol.length := by omega
    have hk : (st.currentBB + (visited ct st).length) * st.taskRate ≤
        st.currentBBCol.length * st.taskRate := Nat.mul_le_mul_right _ hle
    have hsum : st.taskCurrTime + (visited ct st).length * st.taskRate =
        st.currentTask.startTime + (st.currentBB + (visited ct st).length) * st.taskRate := by
      rw [hcur, Nat.add_mul, Nat.add_assoc]
    have hc : cursorAfter st.taskRate (visited ct st).length st.taskCurrTime =
        st.taskCurrTime + (visited ct st).length * st.taskRate := by
      apply cursorAfter_eq
      rw [hsum]
      simp only [ct_timestamp] at *
      omega
    refine ⟨⟨hmem, hnext, hcol, hle, ?_, hbound⟩, ?_⟩
    · show cursorAfter st.taskRate (visited ct st).length st.taskCurrTime = _
      rw [hc, hsum]
    · show st.taskCurrTime ≤ cursorAfter st.taskRate (visited ct st).length st.taskCurrTime
      rw [hc]
      exact Nat.le_add_right _ _

theorem findState_mem (cs : List (ContextId × ctid_current_state)) (c : ContextId)
    (st : ctid_current_state) (h : findState cs c = some st) : (c, st) ∈ cs := by
  induction cs with
  | nil => simp [findState] at h
  | cons e rest ih =>
    obtain ⟨k, s0⟩ := e
    by_cases hk : k = c
    · simp only [findState, hk, if_true, Option.some.injEq] at h
      rw [hk, h]
      exact List.mem_cons_self _ _
    · simp only [findState, hk, if_false] at h
      exact List.mem_cons_of_mem _ (ih h)

theorem cursors_advance_step (tasks : List Task) (hw : WellTimed tasks) (s : State)
    (hr : Reachable tasks s) (currentTask : Task) (rest : List Task) (a : Nat) (s1 : State)
    (a1 : Nat) (hrem : s.tg.remaining = currentTask :: rest)
    (h : processTask currentTask { s with tg := { s.tg with remaining := rest } } a =
      .ok (s1, a1)) : CursorsAdvance s s1 := by
  intro c st hc
  obtain ⟨pulled, hpulled⟩ := reachable_remaining tasks s hr
  have hct : currentTask ∈ tasks := by
    rw [hpulled, hrem]
    simp
  have htrack : Tracking tasks st :=
    reachable_entries tasks (Tracking tasks) (fun ct hct st hn => tracking_new tasks hw ct hct st hn)
      (fun ct hct st hst => (tracking_step tasks hw ct hct st hst).1) s hr (c, st)
      (findState_mem _ _ _ hc)
  exact ⟨_, processTask_findState _ _ _ _ _ _ _ h hc,
    (tracking_step tasks hw currentTask hct st htrack).2⟩

theorem cursors_advance_loop (tasks : List Task) (hw : WellTimed tasks) (ts : List Task)
    (s : State) (a : Nat) (s1 : State) (a1 : Nat) (hts : s.tg.remaining = ts)
    (hr : Reachable tasks s) (h : populateLoop ts s a = .ok (s1, a1)) :
    CursorsAdvance s s1 := by
  induction ts generalizing s a with
  | nil =>
    simp only [populateLoop, Except.ok.injEq, Prod.mk.injEq] at h
    obtain ⟨rfl, rfl⟩ := h
    intro c st hc
    exact ⟨st, hc, Nat.le_refl _⟩
  | cons ct rest ih =>
    simp only [populateLoop] at h
    cases hp : processTask ct { s with tg := { s.tg with remaining := rest } } a with
    | error e => simp [hp] at h
    | ok v =>
      obtain ⟨s2, a2⟩ := v
      simp only [hp] at h
      have hstep := cursors_advance_step tasks hw s hr ct rest a s2 a2 hts hp
      by_cases hpos : a2 > 0
      · simp only [hpos, if_true, Except.ok.injEq, Prod.mk.injEq] at h
        obtain ⟨rfl, rfl⟩ := h
        exact hstep
      · simp only [hpos, if_false] at h
        have hr2 : Reachable tasks s2 := Reachable.pull s s2 ct rest a a2 hr hts hp
        have htg := processTask_tg _ _ _ _ _ hp
        have hrest := ih s2 a2 (by rw [htg]) hr2 h
        intro c st hc
        obtain ⟨st2, hc2, hle2⟩ := hstep c st hc
        obtain ⟨st3, hc3, hle3⟩ := hrest c st2 hc2
        exact ⟨st3, hc3, Nat.le_trans hle2 hle3⟩

/-- C16: let the task sequence of every context of the graph be monotonic in
time (tasks end no earlier than they start, every same-context successor
starts no earlier than its predecessor ends) and let every block count be the
number of basic-block actions.  Then in every reachable state the stored
cursor `taskCurrTime` of every tracked context is at least as large after the
next turn of the loop of `populateQueue`, and after a whole call of
`populateQueue`, as it was before, also when the turn switches the context to
a new task and resets the cursor to the start of that task. -/
theorem cursor_never_decreases (tasks : List Task) (hw : WellTimed tasks) (s : State)
    (hr : Reachable tasks s) :
    (∀ currentTask rest a s1 a1, s.tg.remaining = currentTask :: rest →
        processTask currentTask { s with tg := { s.tg with remaining := rest } } a =
          .ok (s1, a1) →
        CursorsAdvance s s1) ∧
      (∀ s1 n, populateQueue s = .ok (s1, n) → CursorsAdvance s s1) :=
  ⟨fun currentTask rest a s1 a1 hrem h =>
      cursors_advance_step tasks hw s hr currentTask rest a s1 a1 hrem h,
    fun s1 n h => cursors_advance_loop tasks hw s.tg.remaining s 0 s1 n rfl hr h⟩

theorem exGraph_wellTimed : WellTimed [exTaskPrev, exTaskEmpty] := by
  unfold WellTimed TaskOk
  decide

/-- An instance of C16: when the awaited task `exTaskEmpty` is pulled, the
cursor of context 1 goes from 0 to the start 10 of the new task. -/
theorem cursor_never_decreases_witness :
    findState exStateAdopted.contechState 1 = some exEntryPrev ∧
      (findState exStateSwitched.contechState 1).map (fun st => st.taskCurrTime) = some 10 ∧
      CursorsAdvance exStateAdopted exStateSwitched :=
  ⟨by decide, by decide,
    (cursor_never_decreases [exTaskPrev, exTaskEmpty] exGraph_wellTimed exStateAdopted
      exStateAdopted_reachable).1 exTaskEmpty [] 0 _ 1 (by decide) (by decide)⟩

theorem entryAfter_owner (ct : Task) (st : ctid_current_state) :
    ((entryAfter ct st).currentTask = st.currentTask ∧
        ((entryAfter ct st).terminated = false →
          st.terminated = false ∧ releasedBy ct st = [])) ∨
      ((entryAfter ct st).currentTask = ct ∧ (entryAfter ct st).terminated = false ∧
        st.currentTask.contextId = ct.taskId.getContextId ∧
        releasedBy ct st = [st.currentTask]) := by
  cases hterm : st.terminated
  · by_cases heq : ct.taskId = st.nextTaskId
    · by_cases hcond : st.currentTask.contextId ≠ st.nextTaskId.getContextId ∨
          st.nextTaskId = TaskId.zero
      · left
        simp [entryAfter, releasedBy, hterm, heq, hcond]
      · right
        have hctx : st.currentTask.contextId = st.nextTaskId.getContextId := by
          by_contra h
          exact hcond (Or.inl h)
        have hnz : st.nextTaskId ≠ TaskId.zero := fun h => hcond (Or.inr h)
        simp [entryAfter, releasedBy, hterm, heq, hctx, hnz]
    · left
      simp only [entryAfter, releasedBy, hterm, Bool.false_eq_true, if_false, heq, and_false]
      split_ifs <;> simp
  · left
    simp [entryAfter, releasedBy, hterm]

theorem tableReleased_mem (ct : Task) (cs : List (ContextId × ctid_current_state)) (d : Task)
    (h : d ∈ tableReleased ct cs) :
    ∃ e ∈ cs, releasedBy ct e.2 = [e.2.currentTask] ∧ e.2.terminated = false ∧
      d = e.2.currentTask := by
  induction cs with
  | nil => simp [tableReleased] at h
  | cons e rest ih =>
    obtain ⟨k, st⟩ := e
    simp only [tableReleased, List.mem_append] at h
    rcases h with h | h
    · unfold releasedBy at h
      split_ifs at h with hc
      · simp only [List.mem_singleton] at h
        exact ⟨(k, st), List.mem_cons_self _ _, by simp [releasedBy, hc], hc.1, h⟩
      · simp at h
    · obtain ⟨e, he, h1, h2, h3⟩ := ih h
      exact ⟨e, List.mem_cons_of_mem _ he, h1, h2, h3⟩

theorem tableReleased_sublist (ct : Task) (cs : List (ContextId × ctid_current_state)) :
    ((tableReleased ct cs).map (fun T => T.taskId)).Sublist
      (cs.map (fun e => e.2.currentTask.taskId)) := by
  induction cs with
  | nil => simp [tableReleased]
  | cons e rest ih =>
    obtain ⟨k, st⟩ := e
    simp only [tableReleased, List.map_append, List.map_cons]
    unfold releasedBy
    split_ifs
    · simpa using ih
    · simpa using List.Sublist.cons _ ih

theorem tableAfter_keys (ct : Task) (cs : List (ContextId × ctid_current_state)) :
    (tableAfter ct cs).map (fun e => e.1) = cs.map (fun e => e.1) := by
  simp [tableAfter, Function.comp_def]

theorem tableAfter_mem (ct : Task) (cs : List (ContextId × ctid_current_state))
    (e1 : ContextId × ctid_current_state) (h : e1 ∈ tableAfter ct cs) :
    ∃ e ∈ cs, e1 = (e.1, entryAfter ct e.2) := by
  simp only [tableAfter, List.mem_map] at h
  obtain ⟨e, he, rfl⟩ := h
  exact ⟨e, he, rfl⟩

theorem tableAfter_current_nodup (ct : Task) (cs : List (ContextId × ctid_current_state))
    (hkeys : UniqueKeys cs)
    (hold : ∀ e ∈ cs, e.2.currentTask.contextId = e.1 ∧ e.2.currentTask.taskId ≠ ct.taskId)
    (hnd : (cs.map (fun e => e.2.currentTask.taskId)).Nodup) :
    ((tableAfter ct cs).map (fun e => e.2.currentTask.taskId)).Nodup := by
  induction cs with
  | nil => simp [tableAfter]
  | cons e rest ih =>
    obtain ⟨k, st⟩ := e
    simp only [UniqueKeys, List.map_cons, List.nodup_cons] at hkeys hnd
    have ihr := ih hkeys.2 (fun e he => hold e (List.mem_cons_of_mem _ he)) hnd.2
    have hhead := hold (k, st) (List.mem_cons_self _ _)
    simp only [tableAfter, List.map_cons, List.nodup_cons]
    refine ⟨?_, ihr⟩
    intro hmem
    simp only [List.mem_map] at hmem
    obtain ⟨e1, he1, hid⟩ := hmem
    obtain ⟨e0, he0, rfl⟩ := he1
    have htail := hold e0 (List.mem_cons_of_mem _ he0)
    dsimp only at hid hhead
    rcases entryAfter_owner ct st with ⟨hs, _⟩ | ⟨hs, _, hsc, _⟩
    · rcases entryAfter_owner ct e0.2 with ⟨ht, _⟩ | ⟨ht, _, _, _⟩
      · rw [hs, ht] at hid
        apply hnd.1
        rw [← hid]
        exact List.mem_map_of_mem (fun e => e.2.currentTask.taskId) he0
      · rw [hs, ht] at hid
        exact hhead.2 hid.symm
    · rcases entryAfter_owner ct e0.2 with ⟨ht, _⟩ | ⟨ht, _, htc, _⟩
      · rw [hs, ht] at hid
        exact htail.2 hid
      · apply hkeys.1
        have : k = e0.1 := by rw [← hhead.1, hsc, ← htc, htail.1]
        rw [this]
        exact List.mem_map_of_mem (fun e => e.1) he0

theorem ownInv_init (tasks : List Task) (hg : GraphOk tasks) : OwnInv (State.init tasks) := by
  refine ⟨hg.1, hg.2, ?_, ?_, ?_, ?_, ?_, ?_⟩ <;> simp [State.init, UniqueKeys]

theorem ownInv_step (s s1 : State) (ct : Task) (rest : List Task) (a a1 : Nat)
    (hinv : OwnInv s) (hrem : s.tg.remaining = ct :: rest)
    (h : processTask ct { s with tg := { s.tg with remaining := rest } } a = .ok (s1, a1)) :
    OwnInv s1 := by
  obtain ⟨ha, hb, hc, hd, he, hf, hg, hh⟩ := hinv
  simp only [hrem, List.map_cons, List.nodup_cons, List.mem_cons, not_or] at ha hd he
  rw [hrem] at hb
  obtain ⟨htg, _, _, _, hdel, htab⟩ := processTask_fields _ _ _ _ _ h
  dsimp only at htg hdel htab
  have hrem1 : s1.tg.remaining = rest := by rw [htg]
  have hctx : ct.contextId = ct.taskId.getContextId := hb ct (List.mem_cons_self _ _)
  have hold : ∀ e ∈ s.contechState,
      e.2.currentTask.contextId = e.1 ∧ e.2.currentTask.taskId ≠ ct.taskId :=
    fun e he0 => ⟨(hd e he0).1, (hd e he0).2.1⟩
  -- the released tasks
  have hrel : ∀ d ∈ tableReleased ct s.contechState,
      d.taskId ∉ rest.map (fun T => T.taskId) ∧ d.taskId ≠ ct.taskId ∧
        d.taskId ∉ s.deleted.map (fun T => T.taskId) := by
    intro d hdm
    obtain ⟨e, hem, _, hlive, rfl⟩ := tableReleased_mem _ _ _ hdm
    exact ⟨(hd e hem).2.2, (hd e hem).2.1, hh e hem hlive⟩
  have hdelnd : (s1.deleted.map (fun T => T.taskId)).Nodup := by
    rw [hdel, List.map_append, List.nodup_append]
    refine ⟨hg, (tableReleased_sublist ct s.contechState).nodup hf, ?_⟩
    intro x hx1 hx2
    obtain ⟨d, hdm, rfl⟩ := List.mem_map.mp hx2
    exact (hrel d hdm).2.2 hx1
  have hdelrest : ∀ d ∈ s1.deleted, d.taskId ∉ s1.tg.remaining.map (fun T => T.taskId) := by
    intro d hdm
    rw [hrem1]
    rw [hdel, List.mem_append] at hdm
    rcases hdm with hdm | hdm
    · exact (he d hdm).2
    · exact (hrel d hdm).1
  -- the entries that were in the table before
  have hafter : ∀ e1 ∈ tableAfter ct s.contechState,
      e1.2.currentTask.contextId = e1.1 ∧
        e1.2.currentTask.taskId ∉ rest.map (fun T => T.taskId) ∧
        (e1.2.terminated = false →
          e1.2.currentTask.taskId ∉ s1.deleted.map (fun T => T.taskId)) ∧
        (e1.2.currentTask.taskId = ct.taskId → e1.1 = ct.contextId) := by
    intro e1 he1
    obtain ⟨e, hem, rfl⟩ := tableAfter_mem _ _ _ he1
    dsimp only
    rcases entryAfter_owner ct e.2 with ⟨hcur, hlive⟩ | ⟨hcur, _, hsc, _⟩
    · rw [hcur]
      refine ⟨(hd e hem).1, (hd e hem).2.2, ?_, fun hid => absurd hid (hd e hem).2.1⟩
      intro hl hmem
      obtain ⟨hl0, hnone⟩ := hlive hl
      rw [hdel, List.map_append, List.mem_append] at hmem
      rcases hmem with hmem | hmem
      · exact hh e hem hl0 hmem
      · obtain ⟨d, hdm, hid⟩ := List.mem_map.mp hmem
        obtain ⟨e2, hem2, hfire, _, rfl⟩ := tableReleased_mem _ _ _ hdm
        have : e2 = e := List.inj_on_of_nodup_map hf hem2 hem hid
        rw [this, hnone] at hfire
        exact absurd hfire (by simp)
    · rw [hcur]
      refine ⟨by rw [hctx, ← hsc, (hd e hem).1], ha.1, ?_, fun _ => by
        rw [hctx, ← hsc, (hd e hem).1]⟩
      intro _ hmem
      rw [hdel, List.map_append, List.mem_append] at hmem
      rcases hmem with hmem | hmem
      · obtain ⟨d, hdm, hid⟩ := List.mem_map.mp hmem
        exact (he d hdm).1 hid
      · obtain ⟨d, hdm, hid⟩ := List.mem_map.mp hmem
        exact (hrel d hdm).2.1 hid
  have hafternd := tableAfter_current_nodup ct s.contechState hc hold hf
  have hafterkeys : UniqueKeys (tableAfter ct s.contechState) := by
    unfold UniqueKeys
    rw [tableAfter_keys]
    exact hc
  rcases htab with ⟨_, htab⟩ | ⟨htr, st0, hnew, htab⟩
  · refine ⟨by rw [hrem1]; exact ha.2, ?_, by rw [htab]; exact hafterkeys, ?_, hdelrest,
      by rw [htab]; exact hafternd, hdelnd, ?_⟩
    · intro T hT
      rw [hrem1] at hT
      exact hb T (List.mem_cons_of_mem _ hT)
    · intro e1 he1
      rw [htab] at he1
      rw [hrem1]
      exact ⟨(hafter e1 he1).1, (hafter e1 he1).2.1⟩
    · intro e1 he1
      rw [htab] at he1
      exact (hafter e1 he1).2.2.1
  · obtain ⟨_, hcur0, _⟩ := newState_fields ct st0 hnew
    have htr2 : tracked (tableAfter ct s.contechState) ct.contextId = false := by
      rw [tracked_tableAfter]
      exact htr
    have hnotin : ct.contextId ∉ (tableAfter ct s.contechState).map (fun e => e.1) := by
      intro hmem
      rw [← tracked_iff, htr2] at hmem
      exact Bool.false_ne_true hmem
    have hnew0 : st0.currentTask.taskId ∉ s1.deleted.map (fun T => T.taskId) := by
      rw [hcur0]
      intro hmem
      rw [hdel, List.map_append, List.mem_append] at hmem
      rcases hmem with hmem | hmem
      · obtain ⟨d, hdm, hid⟩ := List.mem_map.mp hmem
        exact (he d hdm).1 hid
      · obtain ⟨d, hdm, hid⟩ := List.mem_map.mp hmem
        exact (hrel d hdm).2.1 hid
    refine ⟨by rw [hrem1]; exact ha.2, ?_, ?_, ?_, hdelrest, ?_, hdelnd, ?_⟩
    · intro T hT
      rw [hrem1] at hT
      exact hb T (List.mem_cons_of_mem _ hT)
    · rw [htab]
      exact uniqueKeys_insertState _ _ _ hafterkeys htr2
    · intro e1 he1
      rw [htab] at he1
      rw [hrem1]
      rcases (mem_insertState _ _ _ _).mp he1 with rfl | he1
      · dsimp only
        rw [hcur0]
        exact ⟨rfl, ha.1⟩
      · exact ⟨(hafter e1 he1).1, (hafter e1 he1).2.1⟩
    · rw [htab, ((insertState_perm _ _ _).map _).nodup_iff, List.map_cons, List.nodup_cons]
      refine ⟨?_, hafternd⟩
      dsimp only
      rw [hcur0]
      intro hmem
      obtain ⟨e1, he1, hid⟩ := List.mem_map.mp hmem
      apply hnotin
      rw [← (hafter e1 he1).2.2.2 hid]
      exact List.mem_map_of_mem (fun e => e.1) he1
    · intro e1 he1
      rw [htab] at he1
      rcases (mem_insertState _ _ _ _).mp he1 with rfl | he1
      · intro _
        exact hnew0
      · exact (hafter e1 he1).2.2.1

theorem ownInv_reachable (tasks : List Task) (hg : GraphOk tasks) (s : State)
    (hr : Reachable tasks s) : OwnInv s := by
  induction hr with
  | init => exact ownInv_init tasks hg
  | pull s s1 ct rest a a1 _ hrem hp ih => exact ownInv_step s s1 ct rest a a1 ih hrem hp
  | pop s s1 ret out _ hp ih =>
    obtain ⟨h1, h2, h3⟩ := popRequest_frame _ _ _ _ hp
    unfold OwnInv
    rw [h1, h2, h3]
    exact ih

/-- C18: with the tasks handed to `delete` kept in the log `deleted`, in every
state reachable on a graph with unique task identifiers (the context id of a
task being the context component of its identifier) the log holds no task
twice, no task is the current task of two table entries, and no task of the
log is the current task of a non-terminated entry. -/
theorem single_ownership (tasks : List Task) (hg : GraphOk tasks) (s : State)
    (hr : Reachable tasks s) :
    s.deleted.Nodup ∧ (s.contechState.map (fun e => e.2.currentTask)).Nodup ∧
      ∀ e ∈ s.contechState, e.2.terminated = false → e.2.currentTask ∉ s.deleted := by
  obtain ⟨_, _, _, _, _, hf, hg2, hh⟩ := ownInv_reachable tasks hg s hr
  refine ⟨List.Nodup.of_map _ hg2, ?_, ?_⟩
  · apply List.Nodup.of_map (fun T => T.taskId)
    rw [List.map_map]
    exact hf
  · intro e he hl hmem
    exact hh e he hl (List.mem_map_of_mem (fun T => T.taskId) hmem)

theorem exStateSwitched_reachable : Reachable [exTaskPrev, exTaskEmpty] exStateSwitched :=
  Reachable.pull exStateAdopted exStateSwitched exTaskEmpty [] 0 1 exStateAdopted_reachable
    (by decide) (by decide)

theorem exGraph_ok : GraphOk [exTaskPrev, exTaskEmpty] := by
  unfold GraphOk
  decide

/-- An instance of C18: after the switch of context 1 from `exTaskPrev` to
`exTaskEmpty` the log holds `exTaskPrev` once and the only entry holds
`exTaskEmpty`. -/
theorem single_ownership_witness :
    exStateSwitched.deleted = [exTaskPrev] ∧
      exStateSwitched.contechState.map (fun e => e.2.currentTask) = [exTaskEmpty] ∧
      exStateSwitched.deleted.Nodup ∧
      (exStateSwitched.contechState.map (fun e => e.2.currentTask)).Nodup ∧
      ∀ e ∈ exStateSwitched.contechState, e.2.terminated = false →
        e.2.currentTask ∉ exStateSwitched.deleted :=
  ⟨by decide, by decide,
    single_ownership [exTaskPrev, exTaskEmpty] exGraph_ok exStateSwitched
      exStateSwitched_reachable⟩

end TraceWrapper
